import Mathlib

/-!
Verification development for the pytrajectory repository.

Part 1 embeds `find_integrator_chains` and `IntegChain` from
`pytrajectory_new/auxiliary.py`.

Modelling choices:
* sympy symbols are records holding a name (a list of characters);
  sympy expressions are a small inductive grammar with structural equality
  (sympy `==` is structural); `subs(1.0, 1)` is a recursive replacement of
  the float literal 1.0 by the integer literal 1; objects that are not
  `sp.Basic` instances are modelled by the `rawNum` constructor.
* the Python dict `chaindict` is modelled as an insertion-ordered
  association list with overwrite-in-place update (CPython 2 iteration
  order is hash-dependent; every claim proved below is insensitive to the
  iteration order of the dict, so a deterministic order is chosen).
* the in-place mutation of the argument list `fi` is made explicit by
  state passing: the function returns the post-call contents of `fi`,
  `x_sym` and `u_sym` alongside its result.
* the `while dictchain.has_key(vv)` walk is given `dictchain.length` as
  fuel; the flipped dict is an injective partial map whose walk from an
  in-degree-zero start never revisits a key, so this fuel never truncates.
* the `assert` and the possible `ValueError` of `x_sym.index` are modelled
  by an `Option` result: `none` means the Python call raises.
-/

set_option maxRecDepth 2000

namespace PyTraj

structure Sym where
  name : List Char
deriving DecidableEq, Repr

def dfltS : Sym := ⟨[]⟩

inductive Expr where
  | sym : Sym → Expr
  | intLit : Int → Expr
  | floatLit : ℚ → Expr
  | add : Expr → Expr → Expr
  | mul : Expr → Expr → Expr
  | rawNum : ℚ → Expr
deriving DecidableEq, Repr

def dfltE : Expr := Expr.intLit 0

/-- Model of `isinstance(fi[i], sp.Basic)`: everything except a raw (non-sympy) number. -/
def Expr.isBasic : Expr → Bool
  | .rawNum _ => false
  | _ => true

/-- Model of `e.subs(1.0, 1)`: replace the sympy float literal 1.0 by integer 1. -/
def subs1 : Expr → Expr
  | .sym s => .sym s
  | .intLit k => .intLit k
  | .floatLit q => if q = 1 then .intLit 1 else .floatLit q
  | .add a b => .add (subs1 a) (subs1 b)
  | .mul a b => .mul (subs1 a) (subs1 b)
  | .rawNum q => .rawNum q

/-- One entry of the `fi[i] = fi[i].subs(1.0, 1)` normalisation step. -/
def normEntry (e : Expr) : Expr := if e.isBasic then subs1 e else e

/-- Python's `str.startswith`. -/
def strStarts : List Char → List Char → Bool
  | _, [] => true
  | [], _ :: _ => false
  | a :: s, b :: p => a = b && strStarts s p

abbrev Dict := List (Sym × Sym)

/-- Dictionary lookup (`d[k]` / `d.has_key(k)`). -/
def alookup : Dict → Sym → Option Sym
  | [], _ => none
  | p :: t, k => if p.1 = k then some p.2 else alookup t k

/-- Dictionary update `d[k] = v`: overwrite in place, or append a new binding. -/
def dictInsert (d : Dict) (k v : Sym) : Dict :=
  if (alookup d k).isSome then d.map (fun p => if p.1 = k then (k, v) else p)
  else d ++ [(k, v)]

/-- The two inner `for xx in x_sym` / `for uu in u_sym` loops for one
equation `fi[i]` (already normalised), recording `chaindict[s] = x_sym[i]`
whenever `fi[i] == s`. -/
def insertMatches (d : Dict) (e : Expr) (xi : Sym) (xs us : List Sym) : Dict :=
  let d1 := xs.foldl (fun dd xx => if e = Expr.sym xx then dictInsert dd xx xi else dd) d
  us.foldl (fun dd uu => if e = Expr.sym uu then dictInsert dd uu xi else dd) d1

/-- The `for i in xrange(len(fi))` loop: normalise `fi[i]` in place, then scan
for matches against the state/input symbols.  The remaining suffix of `fi`
is walked together with the remaining suffix of `x_sym` (the pairing
`fi[i]` with `x_sym[i]`); the rebuilt first component is the mutated `fi`. -/
def ficLoop (xs us : List Sym) : List Expr → List Sym → Dict → List Expr × Dict
  | [], _, d => ([], d)
  | e :: rest, xrow, d =>
    let e' := normEntry e
    let d' := insertMatches d e' (xrow.headD dfltS) xs us
    let r := ficLoop xs us rest xrow.tail d'
    (e' :: r.1, r.2)

/-- Embedding of `class IntegChain` of `pytrajectory_new/auxiliary.py`: the ordered tuple
of chain elements; `upper`/`lower` are its first resp. last entry. -/
structure IntegChain where
  elements : List Sym
deriving DecidableEq, Repr

def IntegChain.upper (c : IntegChain) : Sym := c.elements.headD dfltS

def IntegChain.lower (c : IntegChain) : Sym := c.elements.getLastD dfltS

/-- The `uppers` list: values of `chaindict` that do not occur as keys. -/
def uppersOf (d : Dict) : List Sym :=
  (d.map Prod.snd).filter (fun vv => (alookup d vv).isNone)

/-- The flip `dictchain` built by the comprehension over `chaindict` items. -/
def flipDict (d : Dict) : Dict :=
  d.foldl (fun acc p => dictInsert acc p.2 p.1) []

/-- The `while dictchain.has_key(vv)` traversal building one temporary chain,
with explicit fuel (the caller passes `dc.length`, which always suffices). -/
def walk (dc : Dict) : Nat → Sym → List Sym
  | 0, v => [v]
  | fuel + 1, v =>
    match alookup dc v with
    | none => [v]
    | some w => v :: walk dc fuel w

/-- Python's `list.index`: index of the first occurrence, `none` = ValueError. -/
def sindexOf : List Sym → Sym → Option Nat
  | [], _ => none
  | a :: t, s => if a = s then some 0 else (sindexOf t s).map (· + 1)

/-- Insertion into a sorted list of naturals. -/
def sinsert (a : Nat) : List Nat → List Nat
  | [] => [a]
  | b :: t => if a ≤ b then a :: b :: t else b :: sinsert a t

/-- Model of `eqind.sort()`. -/
def ssort : List Nat → List Nat
  | [] => []
  | a :: t => sinsert a (ssort t)

/-- The `for ic in chains` loop collecting `x_sym.index(ic.lower)` for every
chain whose lower end's name starts with `'x'`; `none` = a raised ValueError. -/
def collectInd : List IntegChain → List Sym → Option (List Nat)
  | [], _ => some []
  | ic :: t, xs =>
    if strStarts ic.lower.name ['x'] then
      match sindexOf xs ic.lower, collectInd t xs with
      | some k, some r => some (k :: r)
      | _, _ => none
    else collectInd t xs

/-- The `eqind` computation at the end of `find_integrator_chains`. -/
def eqindOf (chains : List IntegChain) (xs : List Sym) : Option (List Nat) :=
  if chains = [] then some (List.range xs.length)
  else
    match collectInd chains xs with
    | none => none
    | some e0 =>
      let e1 := ssort e0
      some (if e1 = [] then List.range xs.length else e1)

/-- The mutable store visible to a caller of `find_integrator_chains`:
the argument sequences `fi`, `x_sym`, `u_sym`. -/
structure FicStore where
  fi : List Expr
  xs : List Sym
  us : List Sym
deriving DecidableEq, Repr

/-- The dictionary `chaindict` after the scan loop. -/
def chaindictOf (st : FicStore) : Dict :=
  (ficLoop st.xs st.us st.fi st.xs []).2

/-- The contents of `fi` after the scan loop's in-place normalisation. -/
def mutatedFi (st : FicStore) : List Expr :=
  (ficLoop st.xs st.us st.fi st.xs []).1

/-- The chain list built from `uppers` by walking `dictchain`
(`tmpchains` wrapped into `IntegChain` objects). -/
def chainsOf (st : FicStore) : List IntegChain :=
  ((uppersOf (chaindictOf st)).map
    (fun var => walk (flipDict (chaindictOf st)) (flipDict (chaindictOf st)).length var)).map
    IntegChain.mk

/-- Embedding of `find_integrator_chains(fi, x_sym, u_sym)` from
`pytrajectory_new/auxiliary.py`.  Returns the chains and `eqind` together
with the post-call contents of the argument store; `none` models a raised
exception (the failed `assert` or a `ValueError` from `x_sym.index`). -/
def find_integrator_chains (st : FicStore) :
    Option ((List IntegChain × List Nat) × FicStore) :=
  if st.xs.length = st.fi.length then
    match eqindOf (chainsOf st) st.xs with
    | none => none
    | some eqind => some ((chainsOf st, eqind), ⟨mutatedFi st, st.xs, st.us⟩)
  else none

-- Concrete symbols for the worked example of the specification.
def symx1 : Sym := ⟨['x', '1']⟩
def symx2 : Sym := ⟨['x', '2']⟩
def symx3 : Sym := ⟨['x', '3']⟩
def symu1 : Sym := ⟨['u', '1']⟩

def exampleStore : FicStore :=
  ⟨[Expr.sym symx2, Expr.sym symx3, Expr.sym symu1], [symx1, symx2, symx3], [symu1]⟩

/-! ### Dictionary lemmas -/

def dkeys (d : Dict) : List Sym := d.map Prod.fst

theorem alookup_eq_none_iff (d : Dict) (k : Sym) :
    alookup d k = none ↔ k ∉ dkeys d := by
  induction d with
  | nil => simp [alookup, dkeys]
  | cons p t ih =>
    by_cases h : p.1 = k
    · constructor
      · intro hl
        simp [alookup, h] at hl
      · intro hm
        exact absurd (by simp [dkeys, h]) hm
    · have hne : k ≠ p.1 := fun he => h he.symm
      constructor
      · intro hl hm
        rw [alookup] at hl
        simp only [h, if_false] at hl
        simp only [dkeys, List.map_cons, List.mem_cons] at hm
        rcases hm with hm | hm
        · exact hne hm
        · exact (ih.mp hl) hm
      · intro hm
        rw [alookup]
        simp only [h, if_false]
        apply ih.mpr
        intro hk
        exact hm (by simp [dkeys] at hk ⊢; exact Or.inr hk)

theorem alookup_mem {d : Dict} {k v : Sym} (h : alookup d k = some v) :
    (k, v) ∈ d := by
  induction d with
  | nil => simp [alookup] at h
  | cons p t ih =>
    obtain ⟨a, b⟩ := p
    by_cases hp : a = k
    · rw [alookup] at h
      simp only [hp, if_true] at h
      simp at h
      rw [← hp, ← h]
      exact List.mem_cons_self _ _
    · rw [alookup] at h
      simp only [hp, if_false] at h
      exact List.mem_cons_of_mem _ (ih h)

theorem dictInsert_eq_replace {d : Dict} {k : Sym} (v : Sym)
    (h : (alookup d k).isSome) :
    dictInsert d k v = d.map (fun p => if p.1 = k then (k, v) else p) := by
  unfold dictInsert
  rw [if_pos h]

theorem dictInsert_eq_append {d : Dict} {k : Sym} (v : Sym)
    (h : alookup d k = none) :
    dictInsert d k v = d ++ [(k, v)] := by
  unfold dictInsert
  rw [if_neg (by simp [h])]

theorem alookup_map_replace_ne {d : Dict} {k v k' : Sym} (h : k' ≠ k) :
    alookup (d.map (fun p => if p.1 = k then (k, v) else p)) k' = alookup d k' := by
  induction d with
  | nil => simp [alookup]
  | cons p t ih =>
    by_cases hp : p.1 = k
    · have hk' : k ≠ k' := fun he => h he.symm
      rw [List.map_cons, if_pos hp, alookup, alookup]
      simp only [if_neg hk']
      rw [if_neg (by rw [hp]; exact hk'), ih]
    · rw [List.map_cons, if_neg hp, alookup, alookup]
      by_cases hp' : p.1 = k'
      · rw [if_pos hp', if_pos hp']
      · rw [if_neg hp', if_neg hp', ih]

theorem alookup_map_replace_self {d : Dict} {k v : Sym}
    (h : (alookup d k).isSome) :
    alookup (d.map (fun p => if p.1 = k then (k, v) else p)) k = some v := by
  induction d with
  | nil => simp [alookup] at h
  | cons p t ih =>
    by_cases hp : p.1 = k
    · rw [List.map_cons, if_pos hp, alookup]
      simp
    · rw [alookup] at h
      simp only [hp, if_false] at h
      rw [List.map_cons, if_neg hp, alookup, if_neg hp]
      exact ih h

theorem alookup_append_single {d : Dict} {k v : Sym} (h : alookup d k = none)
    (k' : Sym) :
    alookup (d ++ [(k, v)]) k' =
      if k' = k then some v else alookup d k' := by
  induction d with
  | nil =>
    by_cases hk : k = k'
    · simp [alookup, hk]
    · have hk2 : ¬ (k' = k) := fun he => hk he.symm
      simp [alookup, hk, hk2]
  | cons p t ih =>
    have hp : p.1 ≠ k := by
      intro he
      rw [alookup, if_pos he] at h
      simp at h
    have ht : alookup t k = none := by
      rw [alookup, if_neg hp] at h
      exact h
    rw [List.cons_append, alookup, alookup, ih ht]
    by_cases hp' : p.1 = k'
    · have hk2 : ¬ (k' = k) := by
        intro he
        exact hp (by rw [hp', he])
      rw [if_pos hp', if_pos hp', if_neg hk2]
    · rw [if_neg hp', if_neg hp']

theorem alookup_dictInsert (d : Dict) (k v k' : Sym) :
    alookup (dictInsert d k v) k' =
      if k' = k then some v else alookup d k' := by
  by_cases h : (alookup d k).isSome
  · rw [dictInsert_eq_replace v h]
    by_cases hk : k' = k
    · rw [hk, alookup_map_replace_self h, if_pos rfl]
    · rw [alookup_map_replace_ne hk, if_neg hk]
  · have hn : alookup d k = none := Option.not_isSome_iff_eq_none.mp h
    rw [dictInsert_eq_append v hn]
    exact alookup_append_single hn k'

theorem alookup_dictInsert_isSome (d : Dict) (k v k' : Sym) :
    (alookup (dictInsert d k v) k').isSome ↔ k' = k ∨ (alookup d k').isSome := by
  rw [alookup_dictInsert]
  by_cases hk : k' = k <;> simp [hk]

theorem mem_dictInsert {d : Dict} {k v : Sym} {p : Sym × Sym}
    (h : p ∈ dictInsert d k v) : p = (k, v) ∨ p ∈ d := by
  by_cases hs : (alookup d k).isSome
  · rw [dictInsert_eq_replace v hs] at h
    rw [List.mem_map] at h
    obtain ⟨q, hq, hfq⟩ := h
    by_cases hqk : q.1 = k
    · rw [if_pos hqk] at hfq
      exact Or.inl hfq.symm
    · rw [if_neg hqk] at hfq
      exact Or.inr (hfq ▸ hq)
  · rw [dictInsert_eq_append v (Option.not_isSome_iff_eq_none.mp hs)] at h
    rw [List.mem_append, List.mem_singleton] at h
    exact h.symm

theorem dkeys_dictInsert_nodup {d : Dict} {k v : Sym}
    (h : (dkeys d).Nodup) : (dkeys (dictInsert d k v)).Nodup := by
  by_cases hs : (alookup d k).isSome
  · rw [dictInsert_eq_replace v hs]
    have he : dkeys (d.map (fun p => if p.1 = k then (k, v) else p)) = dkeys d := by
      unfold dkeys
      rw [List.map_map]
      apply List.map_congr_left
      intro p _
      by_cases hp : p.1 = k <;> simp [hp]
    rw [he]
    exact h
  · have hn : alookup d k = none := Option.not_isSome_iff_eq_none.mp hs
    have hk : k ∉ dkeys d := (alookup_eq_none_iff d k).mp hn
    rw [dictInsert_eq_append v hn]
    unfold dkeys at h hk ⊢
    rw [List.map_append]
    simp [List.nodup_append, h, hk]

/-! ### The scan loop: mutation characterisation and chaindict invariant -/

theorem ficLoop_fst (xs us : List Sym) :
    ∀ (fi : List Expr) (xrow : List Sym) (d : Dict),
      (ficLoop xs us fi xrow d).1 = fi.map normEntry := by
  intro fi
  induction fi with
  | nil => intro xrow d; rfl
  | cons e rest ih =>
    intro xrow d
    simp [ficLoop, ih]

/-- Invariant of the dictionary built by the scan loop: keys are pairwise
distinct symbols drawn from `x_sym ++ u_sym`, and every binding `k ↦ v`
comes from an equation pair `(fi[i], x_sym[i])` with `fi[i]` (normalised)
syntactically equal to the symbol `k` and `v = x_sym[i]`. -/
def DictInv (xs us : List Sym) (zl : List (Expr × Sym)) (d : Dict) : Prop :=
  (dkeys d).Nodup ∧
  ∀ p ∈ d, (p.1 ∈ xs ∨ p.1 ∈ us) ∧
    ∃ q ∈ zl, normEntry q.1 = Expr.sym p.1 ∧ q.2 = p.2

theorem dictInsert_inv {xs us : List Sym} {zl : List (Expr × Sym)} {d : Dict}
    {k v : Sym} (hd : DictInv xs us zl d) (hk : k ∈ xs ∨ k ∈ us)
    (hw : ∃ q ∈ zl, normEntry q.1 = Expr.sym k ∧ q.2 = v) :
    DictInv xs us zl (dictInsert d k v) := by
  refine ⟨dkeys_dictInsert_nodup hd.1, ?_⟩
  intro p hp
  rcases mem_dictInsert hp with h | h
  · subst h
    exact ⟨hk, hw⟩
  · exact hd.2 p h

theorem insertMatches_inv {xs us : List Sym} {zl : List (Expr × Sym)} {d : Dict}
    {q : Expr × Sym} (hd : DictInv xs us zl d) (hq : q ∈ zl) :
    DictInv xs us zl (insertMatches d (normEntry q.1) q.2 xs us) := by
  unfold insertMatches
  have h1 : DictInv xs us zl
      (xs.foldl (fun dd xx => if normEntry q.1 = Expr.sym xx
        then dictInsert dd xx q.2 else dd) d) := by
    apply List.foldlRecOn xs _ d hd
    intro dd hdd xx hxx
    by_cases hg : normEntry q.1 = Expr.sym xx
    · rw [if_pos hg]
      exact dictInsert_inv hdd (Or.inl hxx) ⟨q, hq, hg, rfl⟩
    · rw [if_neg hg]
      exact hdd
  apply List.foldlRecOn us _ _ h1
  intro dd hdd uu huu
  by_cases hg : normEntry q.1 = Expr.sym uu
  · rw [if_pos hg]
    exact dictInsert_inv hdd (Or.inr huu) ⟨q, hq, hg, rfl⟩
  · rw [if_neg hg]
    exact hdd

theorem ficLoop_dict_inv (xs us : List Sym) (zl : List (Expr × Sym)) :
    ∀ (fi : List Expr) (xrow : List Sym) (d : Dict),
      fi.length ≤ xrow.length →
      (∀ q ∈ fi.zip xrow, q ∈ zl) →
      DictInv xs us zl d →
      DictInv xs us zl (ficLoop xs us fi xrow d).2 := by
  intro fi
  induction fi with
  | nil => intro xrow d _ _ hd; exact hd
  | cons e rest ih =>
    intro xrow d hlen hsub hd
    cases xrow with
    | nil => simp at hlen
    | cons x xr =>
      simp only [ficLoop, List.headD_cons, List.tail_cons]
      apply ih xr _ (by simpa using hlen)
      · intro q hq
        exact hsub q (by simp [hq])
      · have hq0 : ((e, x) : Expr × Sym) ∈ zl := hsub (e, x) (by simp)
        exact insertMatches_inv hd hq0

theorem chaindictOf_inv (fi : List Expr) (xs us : List Sym)
    (hlen : xs.length = fi.length) :
    DictInv xs us (fi.zip xs) (chaindictOf ⟨fi, xs, us⟩) := by
  apply ficLoop_dict_inv xs us (fi.zip xs) fi xs [] (le_of_eq hlen.symm)
    (fun q hq => hq)
  exact ⟨List.nodup_nil, by intro p hp; simp at hp⟩

/-! ### Flip-dictionary lemmas -/

theorem flipDict_mem_aux (d : Dict) :
    ∀ (l : List (Sym × Sym)) (acc : Dict),
      (∀ q ∈ l, q ∈ d) → (∀ q ∈ acc, (q.2, q.1) ∈ d) →
      ∀ p ∈ l.foldl (fun a q => dictInsert a q.2 q.1) acc, (p.2, p.1) ∈ d := by
  intro l
  induction l with
  | nil => intro acc _ hacc p hp; exact hacc p hp
  | cons q t ih =>
    intro acc hl hacc p hp
    rw [List.foldl_cons] at hp
    refine ih _ (fun r hr => hl r (List.mem_cons_of_mem _ hr)) ?_ p hp
    intro r hr
    rcases mem_dictInsert hr with h | h
    · subst h; exact hl q (List.mem_cons_self _ _)
    · exact hacc r h

theorem flipDict_mem {d : Dict} {p : Sym × Sym} (h : p ∈ flipDict d) :
    (p.2, p.1) ∈ d := by
  unfold flipDict at h
  exact flipDict_mem_aux d d [] (fun q hq => hq) (by intro q hq; simp at hq) p h

theorem flipDict_key_isSome_aux {k v : Sym} :
    ∀ (l : List (Sym × Sym)) (acc : Dict),
      ((k, v) ∈ l ∨ (alookup acc v).isSome) →
      (alookup (l.foldl (fun a p => dictInsert a p.2 p.1) acc) v).isSome := by
  intro l
  induction l with
  | nil =>
    intro acc h
    rcases h with h | h
    · simp at h
    · exact h
  | cons q t ih =>
    intro acc h
    rw [List.foldl_cons]
    apply ih
    rcases h with h | h
    · rcases List.mem_cons.mp h with h | h
      · right
        rw [alookup_dictInsert_isSome]
        left
        rw [← h]
      · exact Or.inl h
    · right
      rw [alookup_dictInsert_isSome]
      exact Or.inr h

theorem flipDict_key_isSome {d : Dict} {k v : Sym} (h : (k, v) ∈ d) :
    (alookup (flipDict d) v).isSome :=
  flipDict_key_isSome_aux d [] (Or.inl h)

/-- Injectivity of a dictionary viewed as a partial map. -/
def InjD (dc : Dict) : Prop :=
  ∀ w1 w2 k, alookup dc w1 = some k → alookup dc w2 = some k → w1 = w2

/-- The flipped dictionary is injective: two of its bindings with the same
value would come from two `chaindict` items sharing their key, which the
key-nodup invariant forbids. -/
theorem flipDict_inj {d : Dict} (hnd : (dkeys d).Nodup) : InjD (flipDict d) := by
  intro w1 w2 k h1 h2
  have m1 : (k, w1) ∈ d := flipDict_mem (alookup_mem h1)
  have m2 : (k, w2) ∈ d := flipDict_mem (alookup_mem h2)
  have hnd' : (d.map Prod.fst).Nodup := hnd
  have := List.inj_on_of_nodup_map hnd' m1 m2 rfl
  exact congrArg Prod.snd this

theorem flipDict_indeg_zero {d : Dict} {a : Sym} (ha : alookup d a = none) :
    ∀ w, alookup (flipDict d) w ≠ some a := by
  intro w hw
  have : (a, w) ∈ d := flipDict_mem (alookup_mem hw)
  have hk : a ∈ dkeys d := by
    unfold dkeys
    exact List.mem_map.mpr ⟨(a, w), this, rfl⟩
  exact (alookup_eq_none_iff d a).mp ha hk

/-! ### Walk lemmas -/

def iterF (dc : Dict) : Nat → Sym → Option Sym
  | 0, v => some v
  | n + 1, v => (alookup dc v).bind (iterF dc n)

theorem iterF_add (dc : Dict) (m n : Nat) :
    ∀ v, iterF dc (m + n) v = (iterF dc m v).bind (fun w => iterF dc n w) := by
  induction m with
  | zero => intro v; simp [iterF]
  | succ m ih =>
    intro v
    rw [Nat.succ_add]
    show (alookup dc v).bind (iterF dc (m + n)) = _
    cases h : alookup dc v with
    | none => simp [iterF, h]
    | some w => simp [iterF, h, ih w]

theorem iterF_succ_last (dc : Dict) (n : Nat) (v : Sym) :
    iterF dc (n + 1) v = (iterF dc n v).bind (fun w => alookup dc w) := by
  rw [iterF_add]
  have h1 : ∀ w, iterF dc 1 w = alookup dc w := by
    intro w
    cases h : alookup dc w with
    | none => simp [iterF, h]
    | some u => simp [iterF, h]
  simp only [h1]

theorem iterF_coinj {dc : Dict} (hinj : InjD dc) :
    ∀ n a b x, iterF dc n a = some x → iterF dc n b = some x → a = b := by
  intro n
  induction n with
  | zero =>
    intro a b x ha hb
    simp [iterF] at ha hb
    rw [ha, hb]
  | succ n ih =>
    intro a b x ha hb
    rw [iterF_succ_last] at ha hb
    cases hia : iterF dc n a with
    | none => rw [hia] at ha; simp at ha
    | some ya =>
      cases hib : iterF dc n b with
      | none => rw [hib] at hb; simp at hb
      | some yb =>
        rw [hia] at ha; rw [hib] at hb
        simp at ha hb
        have : ya = yb := hinj ya yb x ha hb
        exact ih a b ya hia (this ▸ hib)

theorem walk_mem_iter {dc : Dict} :
    ∀ (f : Nat) (v x : Sym), x ∈ walk dc f v → ∃ m, iterF dc m v = some x := by
  intro f
  induction f with
  | zero =>
    intro v x hx
    simp [walk] at hx
    exact ⟨0, by simp [iterF, hx]⟩
  | succ f ih =>
    intro v x hx
    rw [walk] at hx
    cases h : alookup dc v with
    | none =>
      rw [h] at hx
      simp at hx
      exact ⟨0, by simp [iterF, hx]⟩
    | some w =>
      rw [h] at hx
      rcases List.mem_cons.mp hx with hx | hx
      · exact ⟨0, by simp [iterF, hx]⟩
      · obtain ⟨m, hm⟩ := ih w x hx
        refine ⟨m + 1, ?_⟩
        show (alookup dc v).bind (iterF dc m) = some x
        rw [h]
        exact hm

theorem walk_mem_cases {dc : Dict} {f : Nat} {v x : Sym}
    (hx : x ∈ walk dc f v) : x = v ∨ ∃ w, alookup dc w = some x := by
  obtain ⟨m, hm⟩ := walk_mem_iter f v x hx
  cases m with
  | zero => simp [iterF] at hm; exact Or.inl hm.symm
  | succ m =>
    rw [iterF_succ_last] at hm
    cases hi : iterF dc m v with
    | none => rw [hi] at hm; simp at hm
    | some w =>
      rw [hi] at hm
      simp at hm
      exact Or.inr ⟨w, hm⟩

theorem iter_reach_eq {dc : Dict} {a : Sym} (hinj : InjD dc)
    (ha : ∀ w, alookup dc w ≠ some a) :
    ∀ m p b x, m ≤ p → iterF dc m a = some x → iterF dc p b = some x → a = b := by
  intro m p b x hmp hma hpb
  obtain ⟨d, hd⟩ : ∃ d, p = d + m := ⟨p - m, by omega⟩
  subst hd
  rw [iterF_add] at hpb
  cases hz : iterF dc d b with
  | none => rw [hz] at hpb; simp at hpb
  | some z =>
    rw [hz] at hpb
    simp at hpb
    have haz : a = z := iterF_coinj hinj m a z x hma hpb
    cases d with
    | zero =>
      simp [iterF] at hz
      rw [haz, hz]
    | succ e =>
      rw [iterF_succ_last] at hz
      cases hw : iterF dc e b with
      | none => rw [hw] at hz; simp at hz
      | some w =>
        rw [hw] at hz
        simp at hz
        exact absurd (haz ▸ hz) (ha w)

theorem walk_disjoint {dc : Dict} {a b : Sym} (hinj : InjD dc)
    (ha : ∀ w, alookup dc w ≠ some a) (hb : ∀ w, alookup dc w ≠ some b)
    (hab : a ≠ b) (f g : Nat) (x : Sym)
    (hxa : x ∈ walk dc f a) (hxb : x ∈ walk dc g b) : False := by
  obtain ⟨m, hm⟩ := walk_mem_iter f a x hxa
  obtain ⟨p, hp⟩ := walk_mem_iter g b x hxb
  rcases le_total m p with h | h
  · exact hab (iter_reach_eq hinj ha m p b x h hm hp)
  · exact hab (iter_reach_eq hinj hb p m a x h hp hm).symm

theorem walk_ne_nil (dc : Dict) (f : Nat) (v : Sym) : walk dc f v ≠ [] := by
  cases f with
  | zero => simp [walk]
  | succ f =>
    rw [walk]
    cases alookup dc v with
    | none => simp
    | some w => simp

theorem walk_length_two {dc : Dict} {f : Nat} {v : Sym}
    (hv : (alookup dc v).isSome) (hf : 1 ≤ f) :
    2 ≤ (walk dc f v).length := by
  cases f with
  | zero => omega
  | succ f =>
    rw [walk]
    cases h : alookup dc v with
    | none => rw [h] at hv; simp at hv
    | some w =>
      simp only [List.length_cons]
      have := List.length_pos.mpr (walk_ne_nil dc f w)
      omega

/-! ### The walk never runs out of fuel

The flipped dictionary is injective and every walk starts at an
in-degree-zero node, so no cycle is reachable, the visited nodes are
pairwise distinct keys, and `dc.length` steps always reach a node without
successor — the embedding's fuel never truncates a chain the Python
`while` loop would have extended. -/

theorem iterF_no_cycle {dc : Dict} {v : Sym} (hinj : InjD dc)
    (hv : ∀ w, alookup dc w ≠ some v) :
    ∀ (m : Nat) (x : Sym) (d : Nat), iterF dc m v = some x → 1 ≤ d →
      iterF dc d x = some x → False := by
  intro m
  induction m with
  | zero =>
    intro x d hm hd hcyc
    simp [iterF] at hm
    rw [← hm] at hcyc
    cases d with
    | zero => omega
    | succ e =>
      rw [iterF_succ_last] at hcyc
      cases hw : iterF dc e v with
      | none => rw [hw] at hcyc; simp at hcyc
      | some w =>
        rw [hw] at hcyc
        simp at hcyc
        exact hv w hcyc
  | succ m ih =>
    intro x d hm hd hcyc
    rw [iterF_succ_last] at hm
    cases hu : iterF dc m v with
    | none => rw [hu] at hm; simp at hm
    | some u =>
      rw [hu] at hm
      simp at hm
      cases d with
      | zero => omega
      | succ e =>
        rw [iterF_succ_last] at hcyc
        cases hw : iterF dc e x with
        | none => rw [hw] at hcyc; simp at hcyc
        | some w =>
          rw [hw] at hcyc
          simp at hcyc
          have huw : u = w := hinj u w x hm hcyc
          have hcycw : iterF dc (e + 1) w = some w := by
            have : (e + 1 : Nat) = 1 + e := by omega
            rw [this, iterF_add]
            have h1 : iterF dc 1 w = some x := by
              show (alookup dc w).bind (iterF dc 0) = some x
              rw [hcyc]
              rfl
            rw [h1]
            exact hw
          exact ih u (e + 1) (huw ▸ hu) (by omega) (huw ▸ hcycw)

theorem iterF_index_inj {dc : Dict} {v : Sym} (hinj : InjD dc)
    (hv : ∀ w, alookup dc w ≠ some v) :
    ∀ (m n : Nat) (x : Sym), iterF dc m v = some x → iterF dc n v = some x →
      m = n := by
  have key : ∀ (m d : Nat) (x : Sym), iterF dc m v = some x →
      iterF dc (m + d) v = some x → d = 0 := by
    intro m d x hm hmd
    cases d with
    | zero => rfl
    | succ e =>
      rw [iterF_add] at hmd
      rw [hm] at hmd
      simp at hmd
      exact absurd hmd (fun hc => iterF_no_cycle hinj hv m x (e + 1) hm
        (by omega) hc)
  intro m n x hm hn
  rcases le_total m n with h | h
  · obtain ⟨d, hd⟩ : ∃ d, n = m + d := ⟨n - m, by omega⟩
    subst hd
    have := key m d x hm hn
    omega
  · obtain ⟨d, hd⟩ : ∃ d, m = n + d := ⟨m - n, by omega⟩
    subst hd
    have := key n d x hn hm
    omega

theorem walk_get? {dc : Dict} :
    ∀ (f : Nat) (v : Sym) (i : Nat) (x : Sym),
      (walk dc f v).get? i = some x → iterF dc i v = some x := by
  intro f
  induction f with
  | zero =>
    intro v i x hg
    cases i with
    | zero =>
      simp [walk] at hg
      simp [iterF, hg]
    | succ j => simp [walk] at hg
  | succ f ih =>
    intro v i x hg
    cases h : alookup dc v with
    | none =>
      simp only [walk, h] at hg
      cases i with
      | zero =>
        simp at hg
        simp [iterF, hg]
      | succ j => simp at hg
    | some w =>
      simp only [walk, h] at hg
      cases i with
      | zero =>
        simp at hg
        simp [iterF, hg]
      | succ j =>
        rw [List.get?_cons_succ] at hg
        have := ih w j x hg
        show (alookup dc v).bind (iterF dc j) = some x
        rw [h]
        exact this

theorem walk_nodup {dc : Dict} {v : Sym} (hinj : InjD dc)
    (hv : ∀ w, alookup dc w ≠ some v) (f : Nat) : (walk dc f v).Nodup := by
  rw [List.nodup_iff_get?_ne_get?]
  intro i j hij hjlen
  intro heq
  cases hj : (walk dc f v).get? j with
  | none =>
    rw [List.get?_eq_none] at hj
    omega
  | some x =>
    rw [hj] at heq
    have h1 := walk_get? f v i x heq
    have h2 := walk_get? f v j x hj
    have := iterF_index_inj hinj hv i j x h1 h2
    omega

theorem walk_dropLast_isSome {dc : Dict} :
    ∀ (f : Nat) (v : Sym) (x : Sym), x ∈ (walk dc f v).dropLast →
      (alookup dc x).isSome := by
  intro f
  induction f with
  | zero =>
    intro v x hx
    simp [walk] at hx
  | succ f ih =>
    intro v x hx
    cases h : alookup dc v with
    | none => simp only [walk, h] at hx; simp at hx
    | some w =>
      simp only [walk, h] at hx
      have hwne : walk dc f w ≠ [] := walk_ne_nil dc f w
      cases hw : walk dc f w with
      | nil => exact absurd hw hwne
      | cons b t =>
        rw [hw] at hx
        rw [List.dropLast_cons₂] at hx
        rcases List.mem_cons.mp hx with hx | hx
        · subst hx
          simp [h]
        · apply ih w x
          rw [hw]
          exact hx

theorem walk_last_some_length {dc : Dict} {dflt : Sym} :
    ∀ (f : Nat) (v w : Sym),
      alookup dc ((walk dc f v).getLastD dflt) = some w →
      (walk dc f v).length = f + 1 := by
  intro f
  induction f with
  | zero => intro v w _; simp [walk]
  | succ f ih =>
    intro v w hlast
    cases h : alookup dc v with
    | none =>
      simp only [walk, h] at hlast
      simp at hlast
      rw [hlast] at h
      simp at h
    | some u =>
      simp only [walk, h] at hlast ⊢
      have hwne : walk dc f u ≠ [] := walk_ne_nil dc f u
      cases hw : walk dc f u with
      | nil => exact absurd hw hwne
      | cons b t =>
        rw [hw, List.getLastD_cons, List.getLastD_cons] at hlast
        have hbt : (walk dc f u).getLastD dflt = t.getLastD b := by
          rw [hw, List.getLastD_cons]
        have hlen := ih u w (by rw [hbt]; exact hlast)
        rw [hw] at hlen
        simp at hlen ⊢
        omega

theorem mem_dropLast_or_getLastD {x : Sym} :
    ∀ (l : List Sym) (d : Sym), x ∈ l → x ∈ l.dropLast ∨ x = l.getLastD d := by
  intro l
  induction l with
  | nil => intro d hx; simp at hx
  | cons a t ih =>
    intro d hx
    cases t with
    | nil =>
      simp at hx
      subst hx
      right
      simp [List.getLastD_cons]
    | cons b u =>
      rw [List.getLastD_cons]
      rcases List.mem_cons.mp hx with hx | hx
      · subst hx
        left
        simp [List.dropLast_cons₂]
      · rcases ih a hx with hx' | hx'
        · left
          simp [List.dropLast_cons₂]
          exact Or.inr hx'
        · right
          exact hx'

theorem nodup_subset_length {l1 l2 : List Sym} (hnd : l1.Nodup)
    (hsub : ∀ x ∈ l1, x ∈ l2) : l1.length ≤ l2.length := by
  have h1 : l1.toFinset.card = l1.length := List.toFinset_card_of_nodup hnd
  have h2 : l1.toFinset ⊆ l2.toFinset := by
    intro x hx
    exact List.mem_toFinset.mpr (hsub x (List.mem_toFinset.mp hx))
  calc l1.length = l1.toFinset.card := h1.symm
    _ ≤ l2.toFinset.card := Finset.card_le_card h2
    _ ≤ l2.length := List.toFinset_card_le l2

/-- With `dc.length` steps of fuel, a walk from an in-degree-zero start of
an injective dictionary always ends at a node with no successor: the
embedding exits the `while dictchain.has_key(vv)` loop exactly as the
source does, never by running out of fuel. -/
theorem walk_fuel_sufficient {dc : Dict} {v : Sym} (hinj : InjD dc)
    (hv : ∀ w, alookup dc w ≠ some v) :
    alookup dc ((walk dc dc.length v).getLastD dfltS) = none := by
  cases hlast : alookup dc ((walk dc dc.length v).getLastD dfltS) with
  | none => rfl
  | some w =>
    exfalso
    have hlen : (walk dc dc.length v).length = dc.length + 1 :=
      walk_last_some_length dc.length v w hlast
    have hnd : (walk dc dc.length v).Nodup := walk_nodup hinj hv dc.length
    have hsub : ∀ x ∈ walk dc dc.length v, x ∈ dkeys dc := by
      intro x hx
      rcases mem_dropLast_or_getLastD (walk dc dc.length v) dfltS hx with
        hx' | hx'
      · have := walk_dropLast_isSome dc.length v x hx'
        by_contra hk
        rw [(alookup_eq_none_iff dc x).mpr hk] at this
        simp at this
      · subst hx'
        by_contra hk
        rw [(alookup_eq_none_iff dc _).mpr hk] at hlast
        simp at hlast
    have := nodup_subset_length hnd hsub
    have hkl : (dkeys dc).length = dc.length := by
      unfold dkeys
      simp
    omega

/-! ### Sorting and index lemmas -/

theorem mem_sinsert (a b : Nat) (l : List Nat) :
    b ∈ sinsert a l ↔ b = a ∨ b ∈ l := by
  induction l with
  | nil => simp [sinsert]
  | cons c t ih =>
    by_cases h : a ≤ c
    · simp [sinsert, h]
    · simp only [sinsert, if_neg h, List.mem_cons, ih]
      tauto

theorem sinsert_sorted (a : Nat) {l : List Nat} (h : List.Sorted (· ≤ ·) l) :
    List.Sorted (· ≤ ·) (sinsert a l) := by
  induction l with
  | nil => simp [sinsert]
  | cons c t ih =>
    rw [List.sorted_cons] at h
    by_cases hac : a ≤ c
    · rw [sinsert, if_pos hac, List.sorted_cons]
      constructor
      · intro b hb
        rcases List.mem_cons.mp hb with hb | hb
        · omega
        · have := h.1 b hb
          omega
      · rw [List.sorted_cons]
        exact h
    · rw [sinsert, if_neg hac, List.sorted_cons]
      constructor
      · intro b hb
        rcases (mem_sinsert a b t).mp hb with hb | hb
        · omega
        · exact h.1 b hb
      · exact ih h.2

theorem ssort_sorted (l : List Nat) : List.Sorted (· ≤ ·) (ssort l) := by
  induction l with
  | nil => simp [ssort]
  | cons a t ih => exact sinsert_sorted a ih

theorem mem_ssort (l : List Nat) (b : Nat) : b ∈ ssort l ↔ b ∈ l := by
  induction l with
  | nil => simp [ssort]
  | cons a t ih =>
    rw [ssort, mem_sinsert, ih]
    simp

theorem range_sorted (n : Nat) : List.Sorted (· ≤ ·) (List.range n) :=
  (List.pairwise_lt_range n).imp (fun h => le_of_lt h)

theorem sindexOf_lt {xs : List Sym} {s : Sym} :
    ∀ {k : Nat}, sindexOf xs s = some k → k < xs.length := by
  induction xs with
  | nil => intro k hk; simp [sindexOf] at hk
  | cons a t ih =>
    intro k hk
    by_cases ha : a = s
    · rw [sindexOf, if_pos ha] at hk
      simp at hk
      simp [← hk]
    · rw [sindexOf, if_neg ha] at hk
      cases ht : sindexOf t s with
      | none => rw [ht] at hk; simp at hk
      | some k' =>
        rw [ht] at hk
        simp at hk
        have := ih ht
        simp [← hk]
        omega

theorem sindexOf_mem {xs : List Sym} {s : Sym} {k : Nat}
    (h : sindexOf xs s = some k) : s ∈ xs := by
  induction xs generalizing k with
  | nil => simp [sindexOf] at h
  | cons a t ih =>
    by_cases ha : a = s
    · rw [ha]; exact List.mem_cons_self _ _
    · rw [sindexOf, if_neg ha] at h
      cases ht : sindexOf t s with
      | none => rw [ht] at h; simp at h
      | some k' => exact List.mem_cons_of_mem _ (ih ht)

theorem collectInd_mem {xs : List Sym} :
    ∀ {chains : List IntegChain} {r : List Nat},
      collectInd chains xs = some r →
      ∀ k ∈ r, ∃ ic ∈ chains, sindexOf xs ic.lower = some k := by
  intro chains
  induction chains with
  | nil =>
    intro r h k hk
    simp [collectInd] at h
    rw [h] at hk
    simp at hk
  | cons ic t ih =>
    intro r h k hk
    rw [collectInd] at h
    by_cases hg : strStarts ic.lower.name ['x'] = true
    · rw [if_pos hg] at h
      cases hs : sindexOf xs ic.lower with
      | none => rw [hs] at h; simp at h
      | some k0 =>
        cases hc : collectInd t xs with
        | none => rw [hs, hc] at h; simp at h
        | some r0 =>
          rw [hs, hc] at h
          simp at h
          rw [← h] at hk
          rcases List.mem_cons.mp hk with hk | hk
          · exact ⟨ic, List.mem_cons_self _ _, hk ▸ hs⟩
          · obtain ⟨ic', hm, hi⟩ := ih hc k hk
            exact ⟨ic', List.mem_cons_of_mem _ hm, hi⟩
    · rw [if_neg hg] at h
      obtain ⟨ic', hm, hi⟩ := ih h k hk
      exact ⟨ic', List.mem_cons_of_mem _ hm, hi⟩

theorem collectInd_nil_of_no_state {xs : List Sym} :
    ∀ {chains : List IntegChain} {r : List Nat},
      collectInd chains xs = some r →
      (∀ ic ∈ chains, ic.lower ∉ xs) → r = [] := by
  intro chains
  induction chains with
  | nil =>
    intro r h _
    simp [collectInd] at h
    exact h
  | cons ic t ih =>
    intro r h hno
    rw [collectInd] at h
    by_cases hg : strStarts ic.lower.name ['x'] = true
    · rw [if_pos hg] at h
      cases hs : sindexOf xs ic.lower with
      | none => rw [hs] at h; simp at h
      | some k0 =>
        exact absurd (sindexOf_mem hs) (hno ic (List.mem_cons_self _ _))
    · rw [if_neg hg] at h
      exact ih h (fun c hc => hno c (List.mem_cons_of_mem _ hc))

/-! ### Chains of the finder: structural facts -/

theorem mutatedFi_eq (st : FicStore) : mutatedFi st = st.fi.map normEntry := by
  unfold mutatedFi
  rw [ficLoop_fst]

theorem find_inv {fi : List Expr} {xs us : List Sym}
    {chains : List IntegChain} {eqind : List Nat} {out : FicStore}
    (h : find_integrator_chains ⟨fi, xs, us⟩ = some ((chains, eqind), out)) :
    xs.length = fi.length ∧
    chains = chainsOf ⟨fi, xs, us⟩ ∧
    eqindOf chains xs = some eqind ∧
    out = ⟨fi.map normEntry, xs, us⟩ := by
  by_cases hlen : xs.length = fi.length
  · refine ⟨hlen, ?_⟩
    simp only [find_integrator_chains] at h
    rw [if_pos hlen] at h
    cases he : eqindOf (chainsOf ⟨fi, xs, us⟩) xs with
    | none =>
      rw [he] at h
      simp at h
    | some e =>
      rw [he] at h
      simp at h
      obtain ⟨⟨hch, heq⟩, hout⟩ := h
      subst hch
      subst heq
      refine ⟨rfl, he, ?_⟩
      rw [← hout, mutatedFi_eq]
  · simp only [find_integrator_chains] at h
    rw [if_neg hlen] at h
    simp at h

theorem getLastD_mem_of_ne_nil {l : List Sym} (h : l ≠ []) (a : Sym) :
    l.getLastD a ∈ l := by
  cases l with
  | nil => exact absurd rfl h
  | cons b t =>
    rw [List.getLastD_cons]
    exact List.getLastD_mem_cons t b

theorem mem_uppersOf {d : Dict} {a : Sym} (h : a ∈ uppersOf d) :
    (∃ p ∈ d, p.2 = a) ∧ alookup d a = none := by
  unfold uppersOf at h
  rw [List.mem_filter] at h
  obtain ⟨hm, hf⟩ := h
  rw [List.mem_map] at hm
  exact ⟨hm, Option.isNone_iff_eq_none.mp (by simpa using hf)⟩

/-- Every element of every produced chain is a state or input symbol. -/
theorem chainsOf_elements_mem {fi : List Expr} {xs us : List Sym}
    (hlen : xs.length = fi.length) :
    ∀ c ∈ chainsOf ⟨fi, xs, us⟩, ∀ s ∈ c.elements, s ∈ xs ∨ s ∈ us := by
  intro c hc s hs
  have hinv := chaindictOf_inv fi xs us hlen
  unfold chainsOf at hc
  rw [List.map_map, List.mem_map] at hc
  obtain ⟨a, ha, hca⟩ := hc
  rw [← hca] at hs
  simp only [Function.comp, IntegChain.elements] at hs
  rcases walk_mem_cases hs with hsv | ⟨w, hw⟩
  · subst hsv
    obtain ⟨⟨p, hp, hpa⟩, _⟩ := mem_uppersOf ha
    obtain ⟨_, q, hq, _, hq2⟩ := hinv.2 p hp
    rw [← hpa, ← hq2]
    exact Or.inl (List.of_mem_zip hq).2
  · have : (s, w) ∈ chaindictOf ⟨fi, xs, us⟩ := flipDict_mem (alookup_mem hw)
    exact (hinv.2 (s, w) this).1

/-- Under distinct state symbols, the values of `chaindict` are pairwise
distinct (a value determines the equation index, which determines the key). -/
theorem chaindict_values_nodup {fi : List Expr} {xs us : List Sym}
    (hlen : xs.length = fi.length) (hnd : xs.Nodup) :
    ((chaindictOf ⟨fi, xs, us⟩).map Prod.snd).Nodup := by
  have hinv := chaindictOf_inv fi xs us hlen
  have hdnd : (chaindictOf ⟨fi, xs, us⟩).Nodup :=
    List.Nodup.of_map Prod.fst hinv.1
  apply List.Nodup.map_on _ hdnd
  intro p hp p' hp' hsnd
  obtain ⟨_, q, hq, hqk, hqv⟩ := hinv.2 p hp
  obtain ⟨_, q', hq', hqk', hqv'⟩ := hinv.2 p' hp'
  have hzs : (fi.zip xs).map Prod.snd = xs :=
    List.map_snd_zip fi xs (le_of_eq hlen)
  have hznd : ((fi.zip xs).map Prod.snd).Nodup := by rw [hzs]; exact hnd
  have hqq : q = q' :=
    List.inj_on_of_nodup_map hznd hq hq' (by rw [hqv, hqv', hsnd])
  have hkk : Expr.sym p.1 = Expr.sym p'.1 := by rw [← hqk, ← hqk', hqq]
  have hfst : p.1 = p'.1 := by
    injection hkk
  have hnd' : ((chaindictOf ⟨fi, xs, us⟩).map Prod.fst).Nodup := hinv.1
  exact List.inj_on_of_nodup_map hnd' hp hp' hfst

/-- Every chain `find_integrator_chains` builds is complete: its last
element has no further entry in the flipped dictionary, so the source's
`while` loop would have stopped exactly there. -/
theorem chainsOf_no_truncation {fi : List Expr} {xs us : List Sym}
    (hlen : xs.length = fi.length) :
    ∀ c ∈ chainsOf ⟨fi, xs, us⟩,
      alookup (flipDict (chaindictOf ⟨fi, xs, us⟩)) c.lower = none := by
  intro c hc
  have hinv := chaindictOf_inv fi xs us hlen
  unfold chainsOf at hc
  rw [List.map_map, List.mem_map] at hc
  obtain ⟨a, ha, hca⟩ := hc
  have hin := (mem_uppersOf ha).2
  rw [← hca]
  exact walk_fuel_sufficient (flipDict_inj hinv.1) (flipDict_indeg_zero hin)

/-! ### Claim theorems for the integrator-chain finder -/

/-- C1 (counterexample): for `fi = [x2, x3, u1]`, `x_sym = [x1, x2, x3]`,
`u_sym = [u1]`, the returned `eqind` is not `[0]` (it is `[0, 1, 2]`):
the single detected chain is stored lowest-order-first as
`[x1, x2, x3, u1]`, so its `lower` attribute is `u1`, whose name does not
start with `'x'`, and the all-indices fallback fires. -/
theorem C1_counterexample :
    (find_integrator_chains exampleStore).map (fun r => r.1.2) ≠ some [0] := by
  decide

/-- C1 (amended): on the worked example the finder returns exactly one
chain, its ordered elements are `[x1, x2, x3, u1]` (so the `upper`
attribute is `x1` and the `lower` attribute is `u1`), `eqind = [0, 1, 2]`,
and the argument store is returned unchanged (the entries are already
normalised symbols). -/
theorem C1_amended :
    find_integrator_chains exampleStore =
      some (([⟨[symx1, symx2, symx3, symu1]⟩], [0, 1, 2]), exampleStore) ∧
    (⟨[symx1, symx2, symx3, symu1]⟩ : IntegChain).upper = symx1 ∧
    (⟨[symx1, symx2, symx3, symu1]⟩ : IntegChain).lower = symu1 := by
  refine ⟨by decide, by decide, by decide⟩

/-- C2: whenever `find_integrator_chains` returns, (i) if chains were
detected but none has a state variable (a member of `x_sym`) as its lower
end, `eqind` is all indices `0..n-1`; (ii) if no chain was detected,
`eqind` is likewise all indices; (iii) every member of `eqind` is a valid
state index; (iv) `eqind` is sorted. -/
theorem C2_eqind_policy {fi : List Expr} {xs us : List Sym}
    {chains : List IntegChain} {eqind : List Nat} {out : FicStore}
    (h : find_integrator_chains ⟨fi, xs, us⟩ = some ((chains, eqind), out)) :
    ((chains ≠ [] ∧ ∀ c ∈ chains, c.lower ∉ xs) → eqind = List.range xs.length) ∧
    (chains = [] → eqind = List.range xs.length) ∧
    (∀ k ∈ eqind, k < xs.length) ∧
    List.Sorted (· ≤ ·) eqind := by
  obtain ⟨hlen, hch, heq, hout⟩ := find_inv h
  unfold eqindOf at heq
  by_cases hc : chains = []
  · rw [if_pos hc] at heq
    simp at heq
    subst heq
    exact ⟨fun hcc => absurd hc hcc.1, fun _ => rfl,
      fun k hk => List.mem_range.mp hk, range_sorted _⟩
  · rw [if_neg hc] at heq
    cases hci : collectInd chains xs with
    | none => rw [hci] at heq; simp at heq
    | some e0 =>
      rw [hci] at heq
      simp at heq
      refine ⟨?_, fun hcc => absurd hcc hc, ?_, ?_⟩
      · intro ⟨_, hno⟩
        have he0 : e0 = [] := collectInd_nil_of_no_state hci hno
        rw [← heq, he0]
        simp [ssort]
      · intro k hk
        rw [← heq] at hk
        by_cases hss : ssort e0 = []
        · rw [if_pos hss] at hk
          exact List.mem_range.mp hk
        · rw [if_neg hss] at hk
          have : k ∈ e0 := (mem_ssort e0 k).mp hk
          obtain ⟨ic, _, hi⟩ := collectInd_mem hci k this
          exact sindexOf_lt hi
      · rw [← heq]
        by_cases hss : ssort e0 = []
        · rw [if_pos hss]; exact range_sorted _
        · rw [if_neg hss]; exact ssort_sorted e0

/-- C9: the finder mutates the caller's `fi` in place — on return every
entry is replaced by its normalised form (`subs(1.0, 1)` applied to every
sympy expression, non-sympy entries untouched), and this normalised form is
what the equality comparisons used; `x_sym` and `u_sym` are returned
unmodified. -/
theorem C9_mutation {fi : List Expr} {xs us : List Sym}
    {chains : List IntegChain} {eqind : List Nat} {out : FicStore}
    (h : find_integrator_chains ⟨fi, xs, us⟩ = some ((chains, eqind), out)) :
    out = ⟨fi.map normEntry, xs, us⟩ :=
  (find_inv h).2.2.2

/-- C9 witness: a store whose single equation is the sympy float literal
1.0 is returned with that entry replaced by the integer literal 1, while
`x_sym` and `u_sym` are unchanged. -/
theorem C9_mutation_witness :
    find_integrator_chains ⟨[Expr.floatLit 1], [symx1], []⟩ =
      some (([], [0]), ⟨[Expr.intLit 1], [symx1], []⟩) ∧
    (⟨[Expr.intLit 1], [symx1], []⟩ : FicStore) =
      ⟨([Expr.floatLit 1].map normEntry), [symx1], []⟩ := by
  have h : find_integrator_chains ⟨[Expr.floatLit 1], [symx1], []⟩ =
      some (([], [0]), ⟨[Expr.intLit 1], [symx1], []⟩) := by decide
  exact ⟨h, C9_mutation h⟩

/-- C10: whenever `find_integrator_chains` returns and the state symbols
are pairwise distinct, every returned chain has at least two elements, and
the chains are pairwise disjoint (no symbol is an element of two distinct
chains of the returned list). -/
theorem C10_chain_invariants {fi : List Expr} {xs us : List Sym}
    {chains : List IntegChain} {eqind : List Nat} {out : FicStore}
    (hnd : xs.Nodup)
    (h : find_integrator_chains ⟨fi, xs, us⟩ = some ((chains, eqind), out)) :
    (∀ c ∈ chains, 2 ≤ c.elements.length) ∧
    chains.Pairwise (fun c1 c2 => ∀ s ∈ c1.elements, s ∉ c2.elements) := by
  obtain ⟨hlen, hch, _, _⟩ := find_inv h
  subst hch
  have hinv := chaindictOf_inv fi xs us hlen
  constructor
  · intro c hc
    unfold chainsOf at hc
    rw [List.map_map, List.mem_map] at hc
    obtain ⟨a, ha, hca⟩ := hc
    obtain ⟨⟨p, hp, hpa⟩, _⟩ := mem_uppersOf ha
    have hkey : (alookup (flipDict (chaindictOf ⟨fi, xs, us⟩)) a).isSome := by
      have : (p.1, a) ∈ chaindictOf ⟨fi, xs, us⟩ := by
        rw [show (p.1, a) = p from by rw [← hpa]]
        exact hp
      exact flipDict_key_isSome this
    have hne : flipDict (chaindictOf ⟨fi, xs, us⟩) ≠ [] := by
      intro hnil
      rw [hnil] at hkey
      simp [alookup] at hkey
    have hlen1 : 1 ≤ (flipDict (chaindictOf ⟨fi, xs, us⟩)).length :=
      List.length_pos.mpr hne
    rw [← hca]
    simp only [Function.comp, IntegChain.elements]
    exact walk_length_two hkey hlen1
  · unfold chainsOf
    rw [List.map_map, List.pairwise_map]
    have hups : (uppersOf (chaindictOf ⟨fi, xs, us⟩)).Nodup :=
      List.Nodup.filter _ (chaindict_values_nodup hlen hnd)
    have hpw : (uppersOf (chaindictOf ⟨fi, xs, us⟩)).Pairwise (· ≠ ·) := hups
    apply List.Pairwise.imp_of_mem _ hpw
    intro a b ha hb hab
    intro s hs hs'
    simp only [Function.comp, IntegChain.elements] at hs hs'
    have hia := (mem_uppersOf ha).2
    have hib := (mem_uppersOf hb).2
    exact walk_disjoint (flipDict_inj hinv.1) (flipDict_indeg_zero hia)
      (flipDict_indeg_zero hib) hab _ _ s hs hs'

/-- C2 witness: the eqind policy instantiated on the worked example
(chains nonempty, lower end `u1` not a state, `eqind = [0, 1, 2]`). -/
theorem C2_eqind_policy_witness :
    (([(⟨[symx1, symx2, symx3, symu1]⟩ : IntegChain)] ≠ [] ∧
        ∀ c ∈ [(⟨[symx1, symx2, symx3, symu1]⟩ : IntegChain)],
          c.lower ∉ [symx1, symx2, symx3]) →
      [0, 1, 2] = List.range [symx1, symx2, symx3].length) ∧
    ([(⟨[symx1, symx2, symx3, symu1]⟩ : IntegChain)] = [] →
      [0, 1, 2] = List.range [symx1, symx2, symx3].length) ∧
    (∀ k ∈ [0, 1, 2], k < [symx1, symx2, symx3].length) ∧
    List.Sorted (· ≤ ·) [0, 1, 2] :=
  @C2_eqind_policy [Expr.sym symx2, Expr.sym symx3, Expr.sym symu1]
    [symx1, symx2, symx3] [symu1] [⟨[symx1, symx2, symx3, symu1]⟩] [0, 1, 2]
    exampleStore (by decide)

/-- C10 witness: the chain invariants instantiated on the worked example
(one chain of four pairwise distinct symbols). -/
theorem C10_chain_invariants_witness :
    (∀ c ∈ [(⟨[symx1, symx2, symx3, symu1]⟩ : IntegChain)],
      2 ≤ c.elements.length) ∧
    [(⟨[symx1, symx2, symx3, symu1]⟩ : IntegChain)].Pairwise
      (fun c1 c2 => ∀ s ∈ c1.elements, s ∉ c2.elements) :=
  @C10_chain_invariants [Expr.sym symx2, Expr.sym symx3, Expr.sym symu1]
    [symx1, symx2, symx3] [symu1] [⟨[symx1, symx2, symx3, symu1]⟩] [0, 1, 2]
    exampleStore (by decide) (by decide)

/-!
Part 2 embeds `class Solver` from `pytrajectory/solver.py`.

Modelling choices:
* numpy float arithmetic is idealised as exact rational arithmetic;
  vectors are lists of rationals, matrices are lists of rows.
* the one expression the source can evaluate to NaN or ±inf — the trust
  ratio `roh`, whose denominator can vanish — is modelled by `FVal`
  (value / NaN / ±inf) with IEEE comparison semantics (NaN compares
  false); everything else in the iteration stays finite rational.
* the linear-algebra collaborator (`numpy.linalg.solve`, `norm`) is a
  parameter (`LinAlg`), as the specification treats it as external; the
  sparse CSR conversion of the jacobian is value-preserving and is
  modelled as the identity.
* the `log` collaborator is modelled by a list of levelled observations;
  calls of `F`/`DF` are counted so that "never calls F" is statable.
* the inner `while roh < b0` loop need not terminate; it gets explicit
  fuel and `none` models divergence.  The outer loop is bounded by its
  own counter, `maxx` steps of fuel always suffice.
-/

abbrev Vec := List ℚ

abbrev Mat := List (List ℚ)

def dotq (a b : Vec) : ℚ := (List.zipWith (· * ·) a b).sum

def vadd (a b : Vec) : Vec := List.zipWith (· + ·) a b

def vneg (v : Vec) : Vec := v.map (fun q => -q)

def matT (m : Mat) : Mat := m.transpose

def matVec (m : Mat) (v : Vec) : Vec := m.map (fun row => dotq row v)

def matMul (a b : Mat) : Mat :=
  a.map (fun row => (matT b).map (fun col => dotq row col))

def matAdd (a b : Mat) : Mat := List.zipWith (List.zipWith (· + ·)) a b

def smulMat (c : ℚ) (m : Mat) : Mat := m.map (fun row => row.map (fun q => c * q))

/-- Model of `np.eye(n)`. -/
def eyeMat (n : Nat) : Mat :=
  (List.range n).map (fun i => (List.range n).map (fun j => if i = j then (1 : ℚ) else 0))

/-- The external linear-algebra collaborator: `numpy.linalg.solve` and
`numpy.linalg.norm`. -/
structure LinAlg where
  nsolve : Mat → Vec → Vec
  nnorm : Vec → ℚ

/-- A float value that may be NaN or ±inf (only the trust ratio needs this). -/
inductive FVal where
  | nan : FVal
  | negInf : FVal
  | posInf : FVal
  | val : ℚ → FVal
deriving DecidableEq, Repr

/-- Float division: a zero denominator gives ±inf or NaN by the sign of
the numerator, as in IEEE arithmetic with a positive zero. -/
def fdiv (num den : ℚ) : FVal :=
  if den = 0 then
    if num > 0 then .posInf else if num < 0 then .negInf else .nan
  else .val (num / den)

/-- Comparison `roh < c` with IEEE comparison semantics (NaN < c is false). -/
def FVal.ltq : FVal → ℚ → Bool
  | .nan, _ => false
  | .negInf, _ => true
  | .posInf, _ => false
  | .val q, c => q < c

/-- Comparison `roh <= c` with IEEE comparison semantics. -/
def FVal.leq : FVal → ℚ → Bool
  | .nan, _ => false
  | .negInf, _ => true
  | .posInf, _ => false
  | .val q, c => q ≤ c

/-- Comparison `roh >= c` with IEEE comparison semantics. -/
def FVal.geq : FVal → ℚ → Bool
  | .nan, _ => false
  | .negInf, _ => false
  | .posInf, _ => true
  | .val q, c => q ≥ c

/-- Border `b0 = 0.2`, the lower trust-ratio border of `Solver.leven`. -/
def b0 : ℚ := 1/5

/-- Border `b1 = 0.8`, the upper trust-ratio border of `Solver.leven`. -/
def b1 : ℚ := 4/5

inductive LogLevel where
  | info : LogLevel
  | warn : LogLevel
deriving DecidableEq, Repr

/-- The messages the solver reports to the logging collaborator. -/
inductive LogMsg where
  | runNewton : LogMsg
  | runGauss : LogMsg
  | runLeven : LogMsg
  | notImplemented : LogMsg
  | wrongSolver : LogMsg
  | iterProgress : Nat → ℚ → LogMsg
deriving DecidableEq, Repr

structure LogEntry where
  lvl : LogLevel
  msg : LogMsg
deriving DecidableEq, Repr

/-- The observable effects of one `solve()` call: emitted log entries and
the number of evaluations of `F` and `DF`. -/
structure RunEff where
  logs : List LogEntry
  nF : Nat
  nDF : Nat
deriving DecidableEq, Repr

def warnCount (logs : List LogEntry) : Nat :=
  (logs.filter (fun e => e.lvl = LogLevel.warn)).length

/-- Embedding of the `class Solver.__init__` state: `F`, `DF`, `x0`, `tol`, `reltol`
(aliased to `tol`), `maxx`, `algo`, and the `sol` attribute. -/
structure Solver where
  F : Vec → Vec
  DF : Vec → Mat
  x0 : Vec
  tol : ℚ
  reltol : ℚ
  maxx : Nat
  algo : List Char
  sol : Option Vec

/-- Constructor `Solver(F, DF, x0, tol, maxx, algo)`: `reltol = tol`, `sol = None`. -/
def mkSolver (F : Vec → Vec) (DF : Vec → Mat) (x0 : Vec) (tol : ℚ)
    (maxx : Nat) (algo : List Char) : Solver :=
  ⟨F, DF, x0, tol, tol, maxx, algo, none⟩

def strNewton : List Char := ['n', 'e', 'w', 't', 'o', 'n']

def strGauss : List Char := ['g', 'a', 'u', 's', 's']

def strLeven : List Char := ['l', 'e', 'v', 'e', 'n']

/-- The state local to one pass of the inner damping loop that survives
the loop: `mu`, `roh`, the last computed step `s` and `normFx`. -/
structure InnerSt where
  mu : ℚ
  roh : FVal
  s : Vec
  normFx : ℚ
deriving DecidableEq, Repr

/-- One pass of the inner damping loop (`solver.py` lines 95-110):
form the damped normal equations, solve for the step, evaluate the trust
ratio and update `mu` by the two independent checks against `b0`/`b1`. -/
def dampingStep (la : LinAlg) (F : Vec → Vec) (Fx : Vec) (DFx : Mat)
    (x : Vec) (eyeN : Mat) (st : InnerSt) (eff : RunEff) : InnerSt × RunEff :=
  let A := matAdd (matMul (matT DFx) DFx) (smulMat (st.mu ^ 2) eyeN)
  let b := matVec (matT DFx) Fx
  let s := vneg (la.nsolve A b)
  let xs := vadd x s
  let Fxs := F xs
  let normFx := la.nnorm Fx
  let normFxs := la.nnorm Fxs
  let roh := fdiv (normFx ^ 2 - normFxs ^ 2)
    (normFx ^ 2 - (la.nnorm (vadd Fx (matVec DFx s))) ^ 2)
  let mu1 := if roh.leq b0 then 2 * st.mu else st.mu
  let mu2 := if roh.geq b1 then (1/2) * mu1 else mu1
  (⟨mu2, roh, s, normFx⟩, ⟨eff.logs, eff.nF + 1, eff.nDF⟩)

/-- The inner `while (roh < b0)` loop, with fuel; `none` models divergence. -/
def innerLoop (la : LinAlg) (F : Vec → Vec) (Fx : Vec) (DFx : Mat)
    (x : Vec) (eyeN : Mat) : Nat → InnerSt → RunEff → Option (InnerSt × RunEff)
  | 0, st, eff => if st.roh.ltq b0 then none else some (st, eff)
  | f + 1, st, eff =>
    if st.roh.ltq b0 then
      let r := dampingStep la F Fx DFx x eyeN st eff
      innerLoop la F Fx DFx x eyeN f r.1 r.2
    else some (st, eff)

/-- The state of the outer iteration of `leven`. -/
structure OuterSt where
  x : Vec
  res : ℚ
  res_alt : ℚ
  mu : ℚ
  roh : FVal
  i : Nat
deriving DecidableEq, Repr

/-- One outer iteration body of `leven` (`solver.py` lines 83-117):
evaluate `F`/`DF` at the current iterate, run the damping loop, then
commit `x = x + s`, shift the residuals and log the progress line.
The CSR sparse conversion of `DFx` is value-preserving (identity here). -/
def outerStep (la : LinAlg) (F : Vec → Vec) (DF : Vec → Mat) (x0 : Vec)
    (ifuel : Nat) (st : OuterSt) (eff : RunEff) : Option (OuterSt × RunEff) :=
  let Fx := F st.x
  let DFx := DF st.x
  let eff1 : RunEff := ⟨eff.logs, eff.nF + 1, eff.nDF + 1⟩
  match innerLoop la F Fx DFx st.x (eyeMat x0.length) ifuel
      ⟨st.mu, st.roh, [], 0⟩ eff1 with
  | none => none
  | some (ist, eff2) =>
    let st' : OuterSt :=
      ⟨vadd st.x ist.s, ist.normFx, st.res, ist.mu, FVal.val 0, st.i + 1⟩
    some (st', ⟨eff2.logs ++ [⟨.info, .iterProgress st'.i st'.res⟩], eff2.nF, eff2.nDF⟩)

/-- The outer `while` loop of `leven` with its three-part guard
`res > tol and maxx > i and abs(res - res_alt) > reltol`. -/
def outerLoop (la : LinAlg) (F : Vec → Vec) (DF : Vec → Mat)
    (tol reltol : ℚ) (maxx : Nat) (x0 : Vec) (ifuel : Nat) :
    Nat → OuterSt → RunEff → Option (OuterSt × RunEff)
  | 0, st, eff =>
    if st.res > tol ∧ maxx > st.i ∧ |st.res - st.res_alt| > reltol then none
    else some (st, eff)
  | f + 1, st, eff =>
    if st.res > tol ∧ maxx > st.i ∧ |st.res - st.res_alt| > reltol then
      match outerStep la F DF x0 ifuel st eff with
      | none => none
      | some r => outerLoop la F DF tol reltol maxx x0 ifuel f r.1 r.2
    else some (st, eff)

/-- Embedding of `Solver.leven`: initial state `x = x0`, `res = 1`, `res_alt = 1e10`,
`mu = 0.1`, `roh = 0.0`, `i = 0`; on loop exit, `self.sol = x`.  The outer
loop increments `i` every iteration and its guard requires `maxx > i`, so
`maxx` steps of outer fuel always suffice; only the inner loop can
diverge (`none`). -/
def leven (la : LinAlg) (ifuel : Nat) (sv : Solver) (eff : RunEff) :
    Option (Solver × RunEff) :=
  match outerLoop la sv.F sv.DF sv.tol sv.reltol sv.maxx sv.x0 ifuel sv.maxx
      ⟨sv.x0, 1, 10000000000, 1/10, FVal.val 0, 0⟩ eff with
  | none => none
  | some (st, eff') => some ({sv with sol := some st.x}, eff')

/-- Embedding of `Solver.solve`: dispatch on `algo`; `newton`/`gauss` log a warning and
return `x0` from within their branch; `leven` runs the iteration; after
dispatch, an unset `sol` yields the `Wrong solver` warning and `x0`. -/
def solveRun (la : LinAlg) (ifuel : Nat) (sv : Solver) :
    Option (Vec × Solver × RunEff) :=
  if sv.algo = strNewton then
    some (sv.x0, sv, ⟨[⟨.info, .runNewton⟩, ⟨.warn, .notImplemented⟩], 0, 0⟩)
  else if sv.algo = strGauss then
    some (sv.x0, sv, ⟨[⟨.info, .runGauss⟩, ⟨.warn, .notImplemented⟩], 0, 0⟩)
  else
    match (if sv.algo = strLeven then
        leven la ifuel sv ⟨[⟨.info, .runLeven⟩], 0, 0⟩
      else some (sv, ⟨[], 0, 0⟩)) with
    | none => none
    | some (sv', eff) =>
      match sv'.sol with
      | none => some (sv'.x0, sv', ⟨eff.logs ++ [⟨.warn, .wrongSolver⟩], eff.nF, eff.nDF⟩)
      | some s => some (s, sv', eff)

/-- One-dimensional instance of the linear-algebra collaborator: for
vectors of length one, the Euclidean norm is the absolute value and the
linear solve is scalar division. -/
def la1 : LinAlg :=
  ⟨fun A b => [(b.headD 0) / ((A.headD []).headD 1)], fun v => |v.headD 0|⟩

def exF : Vec → Vec := fun v => [v.headD 0 - 2]

def exDF : Vec → Mat := fun _ => [[1]]

def exSolver : Solver := mkSolver exF exDF [0] (1/100) 10 strLeven

/-! ### Solver lemmas -/

theorem FVal.not_leq_and_geq (r : FVal) :
    ¬(FVal.leq r b0 = true ∧ FVal.geq r b1 = true) := by
  intro ⟨hl, hg⟩
  cases r with
  | nan => simp [FVal.leq] at hl
  | negInf => simp [FVal.geq] at hg
  | posInf => simp [FVal.leq] at hl
  | val q =>
    simp [FVal.leq, b0] at hl
    simp [FVal.geq, b1] at hg
    linarith

theorem innerLoop_stop {la : LinAlg} {F : Vec → Vec} {Fx : Vec} {DFx : Mat}
    {x : Vec} {eyeN : Mat} {fuel : Nat} {st : InnerSt} {eff : RunEff}
    (h : ¬ FVal.ltq st.roh b0 = true) :
    innerLoop la F Fx DFx x eyeN fuel st eff = some (st, eff) := by
  cases fuel with
  | zero => rw [innerLoop, if_neg h]
  | succ f => rw [innerLoop, if_neg h]

theorem innerLoop_step {la : LinAlg} {F : Vec → Vec} {Fx : Vec} {DFx : Mat}
    {x : Vec} {eyeN : Mat} {f : Nat} {st : InnerSt} {eff : RunEff}
    (h : FVal.ltq st.roh b0 = true) :
    innerLoop la F Fx DFx x eyeN (f + 1) st eff =
      innerLoop la F Fx DFx x eyeN f
        (dampingStep la F Fx DFx x eyeN st eff).1
        (dampingStep la F Fx DFx x eyeN st eff).2 := by
  rw [innerLoop, if_pos h]

theorem dampingStep_normFx (la : LinAlg) (F : Vec → Vec) (Fx : Vec) (DFx : Mat)
    (x : Vec) (eyeN : Mat) (st : InnerSt) (eff : RunEff) :
    (dampingStep la F Fx DFx x eyeN st eff).1.normFx = la.nnorm Fx := rfl

theorem dampingStep_logs (la : LinAlg) (F : Vec → Vec) (Fx : Vec) (DFx : Mat)
    (x : Vec) (eyeN : Mat) (st : InnerSt) (eff : RunEff) :
    (dampingStep la F Fx DFx x eyeN st eff).2.logs = eff.logs := rfl

theorem innerLoop_inv {la : LinAlg} {F : Vec → Vec} {Fx : Vec} {DFx : Mat}
    {x : Vec} {eyeN : Mat} :
    ∀ {fuel : Nat} {st : InnerSt} {eff : RunEff} {st' : InnerSt} {eff' : RunEff},
      innerLoop la F Fx DFx x eyeN fuel st eff = some (st', eff') →
      ((st' = st ∧ eff' = eff ∧ ¬ FVal.ltq st.roh b0 = true) ∨
        st'.normFx = la.nnorm Fx) ∧ eff'.logs = eff.logs := by
  intro fuel
  induction fuel with
  | zero =>
    intro st eff st' eff' h
    by_cases hg : FVal.ltq st.roh b0 = true
    · rw [innerLoop, if_pos hg] at h
      simp at h
    · rw [innerLoop_stop hg] at h
      simp at h
      exact ⟨Or.inl ⟨h.1.symm, h.2.symm, hg⟩, by rw [h.2]⟩
  | succ f ih =>
    intro st eff st' eff' h
    by_cases hg : FVal.ltq st.roh b0 = true
    · rw [innerLoop_step hg] at h
      obtain ⟨hcase, hlogs⟩ := ih h
      constructor
      · rcases hcase with ⟨hst, _, _⟩ | hn
        · rw [hst]
          exact Or.inr (dampingStep_normFx la F Fx DFx x eyeN st eff)
        · exact Or.inr hn
      · rw [hlogs, dampingStep_logs]
    · rw [innerLoop_stop hg] at h
      simp at h
      exact ⟨Or.inl ⟨h.1.symm, h.2.symm, hg⟩, by rw [h.2]⟩

theorem outerStep_inv {la : LinAlg} {F : Vec → Vec} {DF : Vec → Mat} {x0 : Vec}
    {ifuel : Nat} {st : OuterSt} {eff : RunEff} {st' : OuterSt} {eff' : RunEff}
    (h : outerStep la F DF x0 ifuel st eff = some (st', eff')) :
    st'.i = st.i + 1 ∧ st'.res_alt = st.res ∧ st'.roh = FVal.val 0 ∧
    (FVal.ltq st.roh b0 = true → st'.res = la.nnorm (F st.x)) ∧
    (∃ ist : InnerSt, st'.x = vadd st.x ist.s ∧ st'.res = ist.normFx) ∧
    eff'.logs = eff.logs ++ [⟨.info, .iterProgress st'.i st'.res⟩] := by
  simp only [outerStep] at h
  cases hin : innerLoop la F (F st.x) (DF st.x) st.x (eyeMat x0.length) ifuel
      ⟨st.mu, st.roh, [], 0⟩ ⟨eff.logs, eff.nF + 1, eff.nDF + 1⟩ with
  | none => rw [hin] at h; simp at h
  | some r =>
    rw [hin] at h
    simp at h
    obtain ⟨hst, heff⟩ := h
    obtain ⟨hcase, hlogs⟩ := innerLoop_inv hin
    subst hst
    refine ⟨rfl, rfl, rfl, ?_, ⟨r.1, rfl, rfl⟩, ?_⟩
    · intro hgr
      rcases hcase with ⟨hst, _, hng⟩ | hn
      · exact absurd hgr hng
      · exact hn
    · rw [← heff]
      simp
      rw [hlogs]

theorem outerLoop_stop {la : LinAlg} {F : Vec → Vec} {DF : Vec → Mat}
    {tol reltol : ℚ} {maxx : Nat} {x0 : Vec} {ifuel ofuel : Nat}
    {st : OuterSt} {eff : RunEff}
    (h : ¬(st.res > tol ∧ maxx > st.i ∧ |st.res - st.res_alt| > reltol)) :
    outerLoop la F DF tol reltol maxx x0 ifuel ofuel st eff = some (st, eff) := by
  cases ofuel with
  | zero => rw [outerLoop, if_neg h]
  | succ f => rw [outerLoop, if_neg h]

theorem outerLoop_step {la : LinAlg} {F : Vec → Vec} {DF : Vec → Mat}
    {tol reltol : ℚ} {maxx : Nat} {x0 : Vec} {ifuel ofuel : Nat}
    {st : OuterSt} {eff : RunEff}
    (h : st.res > tol ∧ maxx > st.i ∧ |st.res - st.res_alt| > reltol) :
    outerLoop la F DF tol reltol maxx x0 ifuel (ofuel + 1) st eff =
      match outerStep la F DF x0 ifuel st eff with
      | none => none
      | some r => outerLoop la F DF tol reltol maxx x0 ifuel ofuel r.1 r.2 := by
  rw [outerLoop, if_pos h]

theorem outerLoop_final {la : LinAlg} {F : Vec → Vec} {DF : Vec → Mat}
    {tol reltol : ℚ} {maxx : Nat} {x0 : Vec} {ifuel : Nat} :
    ∀ {ofuel : Nat} {st : OuterSt} {eff : RunEff} {stf : OuterSt} {efff : RunEff},
      outerLoop la F DF tol reltol maxx x0 ifuel ofuel st eff = some (stf, efff) →
      ¬(stf.res > tol ∧ maxx > stf.i ∧ |stf.res - stf.res_alt| > reltol) ∧
      (st.i ≤ maxx → stf.i ≤ maxx) ∧
      (∀ e ∈ efff.logs, e ∈ eff.logs ∨ ∃ j r, e = ⟨.info, .iterProgress j r⟩) := by
  intro ofuel
  induction ofuel with
  | zero =>
    intro st eff stf efff h
    by_cases hg : st.res > tol ∧ maxx > st.i ∧ |st.res - st.res_alt| > reltol
    · rw [outerLoop, if_pos hg] at h
      simp at h
    · rw [outerLoop_stop hg] at h
      simp at h
      obtain ⟨h1, h2⟩ := h
      subst h1
      subst h2
      exact ⟨hg, fun hi => hi, fun e he => Or.inl he⟩
  | succ f ih =>
    intro st eff stf efff h
    by_cases hg : st.res > tol ∧ maxx > st.i ∧ |st.res - st.res_alt| > reltol
    · rw [outerLoop_step hg] at h
      cases hstep : outerStep la F DF x0 ifuel st eff with
      | none => rw [hstep] at h; simp at h
      | some r =>
        rw [hstep] at h
        obtain ⟨st1, eff1, hr⟩ : ∃ a b, r = (a, b) := ⟨r.1, r.2, rfl⟩
        subst hr
        obtain ⟨hfin, hile, hlogs⟩ := ih h
        obtain ⟨hi1, _, _, _, _, hlog1⟩ := outerStep_inv hstep
        refine ⟨hfin, ?_, ?_⟩
        · intro _
          apply hile
          rw [hi1]
          omega
        · intro e he
          rcases hlogs e he with he' | he'
          · rw [hlog1] at he'
            rcases List.mem_append.mp he' with h2 | h2
            · exact Or.inl h2
            · simp at h2
              exact Or.inr ⟨_, _, h2⟩
          · exact Or.inr he'
    · rw [outerLoop_stop hg] at h
      simp at h
      obtain ⟨h1, h2⟩ := h
      subst h1
      subst h2
      exact ⟨hg, fun hi => hi, fun e he => Or.inl he⟩

/-- Value of `mu` after one damping pass, expressed by the two sequential,
independent checks of the freshly computed ratio against `b0` and `b1`. -/
theorem dampingStep_mu (la : LinAlg) (F : Vec → Vec) (Fx : Vec) (DFx : Mat)
    (x : Vec) (eyeN : Mat) (st : InnerSt) (eff : RunEff) :
    (dampingStep la F Fx DFx x eyeN st eff).1.mu =
      (if (dampingStep la F Fx DFx x eyeN st eff).1.roh.geq b1 then
        (1/2) * (if (dampingStep la F Fx DFx x eyeN st eff).1.roh.leq b0
          then 2 * st.mu else st.mu)
      else (if (dampingStep la F Fx DFx x eyeN st eff).1.roh.leq b0
          then 2 * st.mu else st.mu)) := rfl

/-! ### Claim theorems for the solver -/

/-- C3: selecting the unimplemented algorithms `newton` or `gauss` returns
`x0` unchanged with the solver state untouched, evaluates `F` and `DF`
zero times, and emits exactly one warning-level observation. -/
theorem C3_unimplemented_noop (la : LinAlg) (ifuel : Nat) (sv : Solver)
    (h : sv.algo = strNewton ∨ sv.algo = strGauss) :
    ∃ eff : RunEff, solveRun la ifuel sv = some (sv.x0, sv, eff) ∧
      eff.nF = 0 ∧ eff.nDF = 0 ∧ warnCount eff.logs = 1 := by
  rcases h with h | h
  · refine ⟨⟨[⟨.info, .runNewton⟩, ⟨.warn, .notImplemented⟩], 0, 0⟩, ?_, rfl, rfl,
      by decide⟩
    simp only [solveRun]
    rw [if_pos h]
  · refine ⟨⟨[⟨.info, .runGauss⟩, ⟨.warn, .notImplemented⟩], 0, 0⟩, ?_, rfl, rfl,
      by decide⟩
    have hne : ¬ sv.algo = strNewton := by rw [h]; decide
    simp only [solveRun]
    rw [if_neg hne, if_pos h]

/-- C3 witness: a concrete `newton` solver. -/
theorem C3_unimplemented_noop_witness :
    ∃ eff : RunEff,
      solveRun la1 5 (mkSolver exF exDF [0] (1/100) 10 strNewton) =
        some ([0], mkSolver exF exDF [0] (1/100) 10 strNewton, eff) ∧
      eff.nF = 0 ∧ eff.nDF = 0 ∧ warnCount eff.logs = 1 :=
  C3_unimplemented_noop la1 5 (mkSolver exF exDF [0] (1/100) 10 strNewton)
    (Or.inl rfl)

/-- C4: in every pass of the inner damping loop (entered while `roh < b0`),
the loop body is one `dampingStep`; after the fresh `roh` is computed,
`mu` is updated by the two independent checks (`roh <= b0` doubles it,
`roh >= b1` halves it, both against the same fresh `roh`), so in
particular `mu` strictly doubles whenever `roh <= 0.2` (and then
necessarily `roh < 0.8`). -/
theorem C4_damping_mu_update (la : LinAlg) (F : Vec → Vec) (Fx : Vec)
    (DFx : Mat) (x : Vec) (eyeN : Mat) (f : Nat) (st : InnerSt) (eff : RunEff)
    (st' : InnerSt) (eff' : RunEff)
    (henter : FVal.ltq st.roh b0 = true)
    (hstep : dampingStep la F Fx DFx x eyeN st eff = (st', eff')) :
    innerLoop la F Fx DFx x eyeN (f + 1) st eff =
      innerLoop la F Fx DFx x eyeN f st' eff' ∧
    st'.mu = (if st'.roh.geq b1 then
        (1/2) * (if st'.roh.leq b0 then 2 * st.mu else st.mu)
      else (if st'.roh.leq b0 then 2 * st.mu else st.mu)) ∧
    (st'.roh.leq b0 = true → st'.mu = 2 * st.mu) ∧
    (st'.roh.geq b1 = true → st'.mu = (1/2) * st.mu) ∧
    (st'.roh.leq b0 = true ∧ st'.roh.ltq b1 = true → st'.mu = 2 * st.mu) := by
  have hmu := dampingStep_mu la F Fx DFx x eyeN st eff
  rw [hstep] at hmu
  refine ⟨?_, hmu, ?_, ?_, ?_⟩
  · rw [innerLoop_step henter, hstep]
  · intro hle
    have hge : ¬ st'.roh.geq b1 = true :=
      fun hg => FVal.not_leq_and_geq st'.roh ⟨hle, hg⟩
    rw [hmu, if_neg hge, if_pos hle]
  · intro hge
    have hle : ¬ st'.roh.leq b0 = true :=
      fun hl => FVal.not_leq_and_geq st'.roh ⟨hl, hge⟩
    rw [hmu, if_pos hge, if_neg hle]
  · intro ⟨hle, _⟩
    have hge : ¬ st'.roh.geq b1 = true :=
      fun hg => FVal.not_leq_and_geq st'.roh ⟨hle, hg⟩
    rw [hmu, if_neg hge, if_pos hle]

/-- C4 witness: the first damping pass of the worked run
(`F(x) = x - 2`, `x = 0`, `mu = 0.1`), where `roh = 1 >= b1` halves `mu`. -/
theorem C4_damping_mu_update_witness :
    innerLoop la1 exF [-2] [[1]] [0] (eyeMat 1) 5
        ⟨1/10, FVal.val 0, [], 0⟩ ⟨[], 1, 1⟩ =
      innerLoop la1 exF [-2] [[1]] [0] (eyeMat 1) 4
        ⟨1/20, FVal.val 1, [200/101], 2⟩ ⟨[], 2, 1⟩ ∧
    (⟨1/20, FVal.val 1, [200/101], 2⟩ : InnerSt).mu =
      (if (⟨1/20, FVal.val 1, [200/101], 2⟩ : InnerSt).roh.geq b1 then
        (1/2) * (if (⟨1/20, FVal.val 1, [200/101], 2⟩ : InnerSt).roh.leq b0
          then 2 * (⟨1/10, FVal.val 0, [], 0⟩ : InnerSt).mu
          else (⟨1/10, FVal.val 0, [], 0⟩ : InnerSt).mu)
      else (if (⟨1/20, FVal.val 1, [200/101], 2⟩ : InnerSt).roh.leq b0
          then 2 * (⟨1/10, FVal.val 0, [], 0⟩ : InnerSt).mu
          else (⟨1/10, FVal.val 0, [], 0⟩ : InnerSt).mu)) ∧
    ((⟨1/20, FVal.val 1, [200/101], 2⟩ : InnerSt).roh.leq b0 = true →
      (⟨1/20, FVal.val 1, [200/101], 2⟩ : InnerSt).mu =
        2 * (⟨1/10, FVal.val 0, [], 0⟩ : InnerSt).mu) ∧
    ((⟨1/20, FVal.val 1, [200/101], 2⟩ : InnerSt).roh.geq b1 = true →
      (⟨1/20, FVal.val 1, [200/101], 2⟩ : InnerSt).mu =
        (1/2) * (⟨1/10, FVal.val 0, [], 0⟩ : InnerSt).mu) ∧
    ((⟨1/20, FVal.val 1, [200/101], 2⟩ : InnerSt).roh.leq b0 = true ∧
        (⟨1/20, FVal.val 1, [200/101], 2⟩ : InnerSt).roh.ltq b1 = true →
      (⟨1/20, FVal.val 1, [200/101], 2⟩ : InnerSt).mu =
        2 * (⟨1/10, FVal.val 0, [], 0⟩ : InnerSt).mu) :=
  C4_damping_mu_update la1 exF [-2] [[1]] [0] (eyeMat 1) 4
    ⟨1/10, FVal.val 0, [], 0⟩ ⟨[], 1, 1⟩
    ⟨1/20, FVal.val 1, [200/101], 2⟩ ⟨[], 2, 1⟩
    (by with_unfolding_all decide) (by with_unfolding_all decide)

/-- C5: in every outer iteration whose damping loop was entered, the
committed state has `res = ‖F(x_old)‖` — the norm of `F` at the iterate
before the accepted step (the `normFx` computed inside the damping loop) —
the previous `res` is moved into `res_alt`, and the new iterate is
`x_old + s`. -/
theorem C5_residual_lag (la : LinAlg) (F : Vec → Vec) (DF : Vec → Mat)
    (x0 : Vec) (ifuel : Nat) (st : OuterSt) (eff : RunEff)
    (st' : OuterSt) (eff' : RunEff)
    (henter : FVal.ltq st.roh b0 = true)
    (h : outerStep la F DF x0 ifuel st eff = some (st', eff')) :
    st'.res = la.nnorm (F st.x) ∧ st'.res_alt = st.res ∧
    ∃ ist : InnerSt, st'.x = vadd st.x ist.s ∧
      ist.normFx = la.nnorm (F st.x) := by
  obtain ⟨_, hra, _, hres, ⟨ist, hx, hrs⟩, _⟩ := outerStep_inv h
  have hr := hres henter
  exact ⟨hr, hra, ist, hx, by rw [← hrs, hr]⟩

/-- C5 witness: the first outer iteration of the worked run; the committed
residual is `‖F([0])‖ = 2`, not the residual at the new iterate. -/
theorem C5_residual_lag_witness :
    (⟨[200/101], 2, 1, 1/20, FVal.val 0, 1⟩ : OuterSt).res =
      la1.nnorm (exF [0]) ∧
    (⟨[200/101], 2, 1, 1/20, FVal.val 0, 1⟩ : OuterSt).res_alt =
      (⟨[0], 1, 10000000000, 1/10, FVal.val 0, 0⟩ : OuterSt).res ∧
    ∃ ist : InnerSt,
      (⟨[200/101], 2, 1, 1/20, FVal.val 0, 1⟩ : OuterSt).x =
        vadd (⟨[0], 1, 10000000000, 1/10, FVal.val 0, 0⟩ : OuterSt).x ist.s ∧
      ist.normFx = la1.nnorm (exF [0]) :=
  C5_residual_lag la1 exF exDF [0] 5
    ⟨[0], 1, 10000000000, 1/10, FVal.val 0, 0⟩ ⟨[], 0, 0⟩
    ⟨[200/101], 2, 1, 1/20, FVal.val 0, 1⟩
    ⟨[⟨.info, .iterProgress 1 2⟩], 2, 1⟩
    (by with_unfolding_all decide) (by with_unfolding_all decide)

/-- C6: the outer loop of `leven` runs exactly while
`res > tol and maxx > i and abs(res - res_alt) > reltol` (a failing guard
stops it immediately and a holding guard performs exactly one more
iteration); since `i` starts at `0`, is incremented once per iteration and
the guard requires `maxx > i`, the final state of a completed `leven` call
has `i <= maxx` (at most `maxIter` iterations), its guard fails in at
least one of the three ways, and the last computed `x` is stored as the
solution regardless of which condition ended the loop. -/
theorem C6_outer_loop_exit (la : LinAlg) (ifuel : Nat) (sv : Solver) :
    (∀ (ofuel : Nat) (st : OuterSt) (eff : RunEff),
      ¬(st.res > sv.tol ∧ sv.maxx > st.i ∧ |st.res - st.res_alt| > sv.reltol) →
      outerLoop la sv.F sv.DF sv.tol sv.reltol sv.maxx sv.x0 ifuel ofuel st eff =
        some (st, eff)) ∧
    (∀ (ofuel : Nat) (st : OuterSt) (eff : RunEff),
      (st.res > sv.tol ∧ sv.maxx > st.i ∧ |st.res - st.res_alt| > sv.reltol) →
      outerLoop la sv.F sv.DF sv.tol sv.reltol sv.maxx sv.x0 ifuel (ofuel + 1) st eff =
        match outerStep la sv.F sv.DF sv.x0 ifuel st eff with
        | none => none
        | some r =>
          outerLoop la sv.F sv.DF sv.tol sv.reltol sv.maxx sv.x0 ifuel ofuel r.1 r.2) ∧
    (∀ (eff0 : RunEff) (sv' : Solver) (eff' : RunEff),
      leven la ifuel sv eff0 = some (sv', eff') →
      ∃ stf : OuterSt, sv'.sol = some stf.x ∧ stf.i ≤ sv.maxx ∧
        (stf.res ≤ sv.tol ∨ sv.maxx ≤ stf.i ∨
          |stf.res - stf.res_alt| ≤ sv.reltol)) := by
  refine ⟨fun ofuel st eff h => outerLoop_stop h,
    fun ofuel st eff h => outerLoop_step h, ?_⟩
  intro eff0 sv' eff' h
  unfold leven at h
  cases hout : outerLoop la sv.F sv.DF sv.tol sv.reltol sv.maxx sv.x0 ifuel sv.maxx
      ⟨sv.x0, 1, 10000000000, 1/10, FVal.val 0, 0⟩ eff0 with
  | none => rw [hout] at h; simp at h
  | some r =>
    obtain ⟨stf, efff, hr⟩ : ∃ a b, r = (a, b) := ⟨r.1, r.2, rfl⟩
    subst hr
    rw [hout] at h
    simp at h
    obtain ⟨hsv, _⟩ := h
    obtain ⟨hfin, hile, _⟩ := outerLoop_final hout
    refine ⟨stf, ?_, hile (Nat.zero_le _), ?_⟩
    · rw [← hsv]
    · by_cases hr1 : stf.res > sv.tol
      · by_cases hr2 : sv.maxx > stf.i
        · by_cases hr3 : |stf.res - stf.res_alt| > sv.reltol
          · exact absurd ⟨hr1, hr2, hr3⟩ hfin
          · exact Or.inr (Or.inr (not_lt.mp hr3))
        · exact Or.inr (Or.inl (not_lt.mp hr2))
      · exact Or.inl (not_lt.mp hr1)

/-- C6 witness: instantiation at the worked solver, together with a
completed concrete `leven` run (three iterations, exit by `res <= tol`). -/
theorem C6_outer_loop_exit_witness :
    ((∀ (ofuel : Nat) (st : OuterSt) (eff : RunEff),
      ¬(st.res > exSolver.tol ∧ exSolver.maxx > st.i ∧
          |st.res - st.res_alt| > exSolver.reltol) →
      outerLoop la1 exSolver.F exSolver.DF exSolver.tol exSolver.reltol
          exSolver.maxx exSolver.x0 5 ofuel st eff = some (st, eff)) ∧
    (∀ (ofuel : Nat) (st : OuterSt) (eff : RunEff),
      (st.res > exSolver.tol ∧ exSolver.maxx > st.i ∧
          |st.res - st.res_alt| > exSolver.reltol) →
      outerLoop la1 exSolver.F exSolver.DF exSolver.tol exSolver.reltol
          exSolver.maxx exSolver.x0 5 (ofuel + 1) st eff =
        match outerStep la1 exSolver.F exSolver.DF exSolver.x0 5 st eff with
        | none => none
        | some r =>
          outerLoop la1 exSolver.F exSolver.DF exSolver.tol exSolver.reltol
            exSolver.maxx exSolver.x0 5 ofuel r.1 r.2) ∧
    (∀ (eff0 : RunEff) (sv' : Solver) (eff' : RunEff),
      leven la1 5 exSolver eff0 = some (sv', eff') →
      ∃ stf : OuterSt, sv'.sol = some stf.x ∧ stf.i ≤ exSolver.maxx ∧
        (stf.res ≤ exSolver.tol ∨ exSolver.maxx ≤ stf.i ∨
          |stf.res - stf.res_alt| ≤ exSolver.reltol))) ∧
    (leven la1 5 exSolver ⟨[], 0, 0⟩).map (fun r => (r.1.sol, r.2)) =
      some (some [129684200/64842101],
        ⟨[⟨.info, .iterProgress 1 2⟩, ⟨.info, .iterProgress 2 (2/101)⟩,
          ⟨.info, .iterProgress 3 (2/40501)⟩], 6, 3⟩) :=
  ⟨C6_outer_loop_exit la1 5 exSolver, by with_unfolding_all rfl⟩

/-- C7: with `F` and `DF` pure (they are Lean functions), a second
`solve()` call on the solver state left by a first call returns the very
same result — the stored solution from the first call does not change the
second run, which recomputes and restores the identical state, logs and
call counts. -/
theorem C7_solve_idempotent (la : LinAlg) (ifuel : Nat) (sv : Solver)
    (hsol : sv.sol = none) (r1 : Vec) (sv1 : Solver) (eff1 : RunEff)
    (h : solveRun la ifuel sv = some (r1, sv1, eff1)) :
    solveRun la ifuel sv1 = some (r1, sv1, eff1) := by
  obtain ⟨F, DF, x0, tol, reltol, maxx, algo, sol⟩ := sv
  simp at hsol
  subst hsol
  by_cases hn : algo = strNewton
  · subst hn
    simp [solveRun] at h
    obtain ⟨h1, h2, h3⟩ := h
    subst h1
    subst h2
    subst h3
    simp [solveRun]
  · by_cases hg : algo = strGauss
    · subst hg
      have hne : ¬ strGauss = strNewton := by decide
      simp [solveRun, hne] at h
      obtain ⟨h1, h2, h3⟩ := h
      subst h1
      subst h2
      subst h3
      simp [solveRun, hne]
    · by_cases hl : algo = strLeven
      · subst hl
        have hn' : ¬ strLeven = strNewton := by decide
        have hg' : ¬ strLeven = strGauss := by decide
        simp only [solveRun, if_neg hn', if_neg hg', if_pos rfl] at h ⊢
        unfold leven at h
        cases hout : outerLoop la F DF tol reltol maxx x0 ifuel maxx
            ⟨x0, 1, 10000000000, 1/10, FVal.val 0, 0⟩
            ⟨[⟨.info, .runLeven⟩], 0, 0⟩ with
        | none => rw [hout] at h; simp at h
        | some r =>
          obtain ⟨stf, efff, hr⟩ : ∃ a b, r = (a, b) := ⟨r.1, r.2, rfl⟩
          subst hr
          rw [hout] at h
          simp at h
          obtain ⟨h1, h2, h3⟩ := h
          subst h1
          subst h2
          subst h3
          unfold leven
          rw [hout]
          simp [hn', hg']
      · have hl' : ¬ algo = strLeven := hl
        simp [solveRun, hn, hg, hl'] at h
        obtain ⟨h1, h2, h3⟩ := h
        subst h1
        subst h2
        subst h3
        simp [solveRun, hn, hg, hl']

/-- C7 witness: the worked `leven` solver; the second call on the state
left by the first call returns the identical output. -/
theorem C7_solve_idempotent_witness :
    solveRun la1 5
        ⟨exF, exDF, [0], 1/100, 1/100, 10, strLeven, some [129684200/64842101]⟩ =
      some ([129684200/64842101],
        ⟨exF, exDF, [0], 1/100, 1/100, 10, strLeven, some [129684200/64842101]⟩,
        ⟨[⟨.info, .runLeven⟩, ⟨.info, .iterProgress 1 2⟩,
          ⟨.info, .iterProgress 2 (2/101)⟩, ⟨.info, .iterProgress 3 (2/40501)⟩],
          6, 3⟩) :=
  C7_solve_idempotent la1 5 exSolver rfl [129684200/64842101]
    ⟨exF, exDF, [0], 1/100, 1/100, 10, strLeven, some [129684200/64842101]⟩
    ⟨[⟨.info, .runLeven⟩, ⟨.info, .iterProgress 1 2⟩,
      ⟨.info, .iterProgress 2 (2/101)⟩, ⟨.info, .iterProgress 3 (2/40501)⟩],
      6, 3⟩ (by with_unfolding_all rfl)

def svFoo : Solver := mkSolver exF exDF [0] (1/100) 10 ['f', 'o', 'o']

/-- C8 (counterexample): the `Wrong solver` fallback is NOT reachable via
the `newton`/`gauss` branches (they return `x0` from inside their branch):
it fires for an unrecognised algorithm name.  Concretely, `algo = "foo"`
— which is neither `newton` nor `gauss` — returns `x0` with exactly the
`Wrong solver` warning, while the `newton` run's log contains no
`Wrong solver` entry. -/
theorem C8_counterexample :
    (solveRun la1 5 svFoo).map (fun r => (r.1, r.2.2)) =
      some ([0], ⟨[⟨.warn, .wrongSolver⟩], 0, 0⟩) ∧
    svFoo.algo ≠ strNewton ∧ svFoo.algo ≠ strGauss ∧
    (solveRun la1 5 (mkSolver exF exDF [0] (1/100) 10 strNewton)).map
        (fun r => r.2.2.logs) =
      some [⟨.info, .runNewton⟩, ⟨.warn, .notImplemented⟩] := by
  refine ⟨by decide, by decide, by decide, by decide⟩

/-- C8 (amended): for a freshly constructed solver, the `Wrong solver`
fallback fires exactly when `algo` is none of `newton`, `gauss`, `leven`;
the `newton`/`gauss` branches return `x0` directly without reaching it;
and for `algo = "leven"`, whenever the iteration terminates, a solution
vector is produced, stored in `sol` and returned. -/
theorem C8_fallback_amended (la : LinAlg) (ifuel : Nat) (sv : Solver)
    (hsol : sv.sol = none) (r1 : Vec) (sv1 : Solver) (eff1 : RunEff)
    (h : solveRun la ifuel sv = some (r1, sv1, eff1)) :
    ((⟨.warn, .wrongSolver⟩ : LogEntry) ∈ eff1.logs ↔
      (sv.algo ≠ strNewton ∧ sv.algo ≠ strGauss ∧ sv.algo ≠ strLeven)) ∧
    (sv.algo = strLeven → ∃ x, sv1.sol = some x ∧ r1 = x) := by
  obtain ⟨F, DF, x0, tol, reltol, maxx, algo, sol⟩ := sv
  simp at hsol
  subst hsol
  by_cases hn : algo = strNewton
  · subst hn
    simp [solveRun] at h
    obtain ⟨_, _, h3⟩ := h
    subst h3
    constructor
    · simp
    · intro hle
      exact ((show ¬ strNewton = strLeven by decide) hle).elim
  · by_cases hg : algo = strGauss
    · subst hg
      have hne : ¬ strGauss = strNewton := by decide
      simp [solveRun, hne] at h
      obtain ⟨_, _, h3⟩ := h
      subst h3
      constructor
      · simp
      · intro hle
        exact ((show ¬ strGauss = strLeven by decide) hle).elim
    · by_cases hl : algo = strLeven
      · subst hl
        have hn' : ¬ strLeven = strNewton := by decide
        have hg' : ¬ strLeven = strGauss := by decide
        simp only [solveRun, if_neg hn', if_neg hg', if_pos rfl] at h
        unfold leven at h
        cases hout : outerLoop la F DF tol reltol maxx x0 ifuel maxx
            ⟨x0, 1, 10000000000, 1/10, FVal.val 0, 0⟩
            ⟨[⟨.info, .runLeven⟩], 0, 0⟩ with
        | none => rw [hout] at h; simp at h
        | some r =>
          obtain ⟨stf, efff, hr⟩ : ∃ a b, r = (a, b) := ⟨r.1, r.2, rfl⟩
          subst hr
          rw [hout] at h
          simp at h
          obtain ⟨h1, h2, h3⟩ := h
          subst h1
          subst h2
          subst h3
          obtain ⟨_, _, hlogs⟩ := outerLoop_final hout
          constructor
          · constructor
            · intro hmem
              rcases hlogs _ hmem with hmem' | ⟨j, rr, hjr⟩
              · simp at hmem'
              · simp at hjr
            · intro ⟨_, _, habs⟩
              exact absurd rfl habs
          · intro _
            exact ⟨stf.x, rfl, rfl⟩
      · have hl' : ¬ algo = strLeven := hl
        simp [solveRun, hn, hg, hl'] at h
        obtain ⟨_, _, h3⟩ := h
        subst h3
        constructor
        · simp
          exact ⟨hn, hg, hl⟩
        · intro hle
          exact absurd hle hl

/-- C8 (amended) witness: the unrecognised algorithm `"foo"` on a fresh
solver fires the fallback, and its name is none of the three. -/
theorem C8_fallback_amended_witness :
    ((⟨.warn, .wrongSolver⟩ : LogEntry) ∈
        (⟨[⟨.warn, .wrongSolver⟩], 0, 0⟩ : RunEff).logs ↔
      (svFoo.algo ≠ strNewton ∧ svFoo.algo ≠ strGauss ∧
        svFoo.algo ≠ strLeven)) ∧
    (svFoo.algo = strLeven → ∃ x, svFoo.sol = some x ∧ ([0] : Vec) = x) :=
  C8_fallback_amended la1 5 svFoo rfl [0] svFoo
    ⟨[⟨.warn, .wrongSolver⟩], 0, 0⟩ (by with_unfolding_all rfl)

end PyTraj
